import Mathlib

/-!
Verification development for the dlna-tree tree-construction optimizer
(`baue_baum.py`).

The Python source is shallowly embedded over `ℚ`: Python `float` weights and
costs are modelled as exact rationals, Python tuples/lists as `List`, the two
mutable dictionaries `costs_cache` and `split_positions` as association lists
threaded through the recursion, and Python exceptions / non-termination as
`Option`-valued results (`none` covers a raised exception as well as running
out of recursion fuel).  All definitions follow the structure of the source
functions of the same (snake-cased) name.
-/

namespace DlnaTree

/- Core marks the `Rat` field operations irreducible for the elaborator, which
would block `rfl`/`decide` evaluation of the embedded algorithms on concrete
inputs; the kernel unfolds them regardless, so this only lets the elaborator
find the same reductions the kernel checks. -/
attribute [local semireducible] Rat.add Rat.sub Rat.mul Rat.inv

/-- The `AccessType` enum from `baue_baum.py`. -/
inductive AccessType : Type
  | WRAPPABLE
  | LINEAR
  | CONSTANT
deriving DecidableEq, Repr

/-- `access_costs(max_branching_factor, access_type)` from `baue_baum.py`,
restricted to the three members of the closed enum `AccessType` (every call
site in the program passes one of them, so the `else: raise` branch is
unreachable there; it is modelled separately by `accessCostsChecked`).
`WRAPPABLE` is `[1] + [min(n, b - n) + 1 for n in range(1, b)]`, `LINEAR` is
`range(1, b + 1)`, `CONSTANT` is `[1] * b`. -/
def accessCosts (b : ℕ) : AccessType → List ℚ
  | .WRAPPABLE => 1 :: (List.range' 1 (b - 1)).map (fun n => ((min n (b - n) : ℕ) : ℚ) + 1)
  | .LINEAR => (List.range' 1 b).map (Nat.cast : ℕ → ℚ)
  | .CONSTANT => List.replicate b 1

/-- A value passed to `access_costs` as its `access_type` argument: either one
of the three enum members, or any other Python value (`unknown`), for which
the final `else` branch raises `IllegalArgumentException`. -/
inductive PolicyArg : Type
  | known : AccessType → PolicyArg
  | unknown : PolicyArg
deriving DecidableEq

/-- `access_costs` including its `else: raise IllegalArgumentException`
branch: the raise is modelled as `Except.error ()`. -/
def accessCostsChecked (b : ℕ) : PolicyArg → Except Unit (List ℚ)
  | .known a => .ok (accessCosts b a)
  | .unknown => .error ()

/-- `get_ratios(costs)` from `baue_baum.py`:
`ratios_unnormed = [1 / c for c in costs]`, then each entry is divided by the
sum.  (The `assert abs(sum(ratios) - 1) < 1e-6` of the source is exact over
`ℚ` whenever the sum of reciprocals is nonzero; see `getRatios_sum`.) -/
def getRatios (costs : List ℚ) : List ℚ :=
  let unnormed := costs.map (fun c => 1 / c)
  let s := unnormed.sum
  unnormed.map (fun r => r / s)

/-- `split_to_lists(inlist, insplit)` from `baue_baum.py`:
`split = (0,) + insplit + (len(inlist),)` and the list of Python slices
`inlist[start:end]` for consecutive pairs of `split`. -/
def splitToLists {α : Type} (inlist : List α) (insplit : List ℕ) : List (List α) :=
  let split := 0 :: (insplit ++ [inlist.length])
  (split.zip (split.drop 1)).map (fun p => (inlist.drop p.1).take (p.2 - p.1))

/-- The inner generator `iter_nsplits_worker` of `iter_nsplits`: for
`num_splits = 0` it yields `start_tuple`; otherwise it iterates
`split_pos` over `range(start_idx, nof_elems - num_splits + 1)` and recurses
on `num_splits - 1`, `split_pos + 1`, `start_tuple + (split_pos,)`. -/
def iterNsplitsWorker (nofElems : ℕ) : ℕ → ℕ → List ℕ → List (List ℕ)
  | 0, _, startTuple => [startTuple]
  | numSplits + 1, startIdx, startTuple =>
    (List.range' startIdx (nofElems - (numSplits + 1) + 1 - startIdx)).flatMap
      (fun splitPos =>
        iterNsplitsWorker nofElems numSplits (splitPos + 1) (startTuple ++ [splitPos]))

/-- `iter_nsplits(nof_elems, num_splits)` from `baue_baum.py`, including its
`ValueError` for `nof_elems <= num_splits` (modelled as `Except.error ()`). -/
def iterNsplits (nofElems numSplits : ℕ) : Except Unit (List (List ℕ)) :=
  if nofElems ≤ numSplits then .error ()
  else .ok (iterNsplitsWorker nofElems numSplits 1 [])

/-- The `cumratio_weights` list of one iteration of
`get_ratio_splitpositions`: `cumsum_weights = [sum(weight_tuple[cur_split :
i + 1]) for i in range(cur_split, len(weight_tuple))]`, each entry divided by
`cumsum_weights[-1]`. -/
def grsCumr (w : List ℚ) (curSplit : ℕ) : List ℚ :=
  let cumsum := (List.range' curSplit (w.length - curSplit)).map
    (fun i => ((w.drop curSplit).take (i + 1 - curSplit)).sum)
  cumsum.map (fun x => x / cumsum.getLastD 0)

/-- One iteration's choice of the relative cut position in
`get_ratio_splitpositions`: `candidate_idx = is_greater.index(True)` (`none`
models the `ValueError` when no entry qualifies), then the tie-break between
`candidate_idx` and `candidate_idx + 1` (a candidate index of 0 always moves
to 1 so that the part is non-empty). -/
def grsRel (cumr : List ℚ) (r2 : ℚ) : Option ℕ :=
  match cumr.findIdx? (fun x => decide (r2 ≤ x)) with
  | none => none
  | some ci =>
    some (if ci = 0 then 1
      else if r2 - cumr.getD (ci - 1) 0 < cumr.getD ci 0 - r2 then ci
      else ci + 1)

/-- The loop of `get_ratio_splitpositions` over `ratios[:-1]`, with state
`(split_positions, base_ind, rescale_ratio)`; `cur_split` is
`split_positions[-1]` (0 when empty).  `none` models the `ValueError` inside
`grsRel` and a failure of the `assert cur_split_pos <= len(weight_tuple)`;
the `break` for `cur_split_pos == len(weight_tuple)` returns the positions
accumulated so far. -/
def grsLoop (w : List ℚ) : List ℚ → List ℕ → ℕ → ℚ → Option (List ℕ)
  | [], acc, _, _ => some acc
  | r :: rest, acc, baseInd, rsc =>
    let r2 := r / rsc
    match grsRel (grsCumr w (acc.getLastD 0)) r2 with
    | none => none
    | some rel =>
      let pos := baseInd + rel
      if w.length < pos then none
      else if pos = w.length then some acc
      else grsLoop w rest (acc ++ [pos]) pos (rsc * (1 - r2))

/-- `get_ratio_splitpositions(weight_tuple, ratios)` from `baue_baum.py`. -/
def getRatioSplitpositions (w : List ℚ) (ratios : List ℚ) : Option (List ℕ) :=
  grsLoop w ratios.dropLast [] 0 1

/-- The dataclass `BruteForceResult`. -/
structure BruteForceResult : Type where
  costs : ℚ
  weight : ℚ
deriving DecidableEq, Repr

/-- The pair of mutable dictionaries threaded through the recursion:
`costs_cache : CACHE_T` and `split_positions : SPLIT_POS_MAPPING_T`, both
keyed by weight tuples. -/
structure BFState : Type where
  cache : List (List ℚ × ℚ)
  splitPositions : List (List ℚ × List ℕ)
deriving DecidableEq, Repr

/-- Association-list lookup, modelling Python `d[key]` / `key in d`. -/
def alookup {α : Type} : List (List ℚ × α) → List ℚ → Option α
  | [], _ => none
  | (k, v) :: rest, key => if k = key then some v else alookup rest key

/-- Association-list update, modelling Python `d[key] = v` (overwrites an
existing binding in place, otherwise appends, as a Python dict does). -/
def ainsert {α : Type} : List (List ℚ × α) → List ℚ → α → List (List ℚ × α)
  | [], key, v => [(key, v)]
  | (k, w) :: rest, key, v =>
    if k = key then (k, v) :: rest else (k, w) :: ainsert rest key v

/-- The initial value of `best_split_cost` in `bruteforce_worker`:
`float(0xCAFFEBABE)`. -/
def bfSentinel : ℚ := 0xCAFFEBABE

/-- The innermost loop of `bruteforce_worker`: evaluate every sublist of one
candidate split, threading the state; a sublist of length 1 yields
`BruteForceResult(costs=0, weight=sublist[0])` without recursing. -/
def bfSubtrees (recur : List ℚ → BFState → Option (BFState × BruteForceResult)) :
    List (List ℚ) → BFState → Option (BFState × List BruteForceResult)
  | [], st => some (st, [])
  | sub :: rest, st =>
    match (if sub.length = 1 then some (st, ⟨0, sub.headD 0⟩) else recur sub st) with
    | none => none
    | some (st1, res) =>
      match bfSubtrees recur rest st1 with
      | none => none
      | some (st2, results) => some (st2, res :: results)

/-- The loop of `bruteforce_worker` over `iter_nsplits(...)`: for each
candidate split compute `total_costs = sum_of_subtree_costs +
accumulated_costs_to_access_subtrees` and keep the best, preferring on an
exact tie the split with more cuts. -/
def bfSplitLoop (recur : List ℚ → BFState → Option (BFState × BruteForceResult))
    (elements : List ℚ) (costs : List ℚ) :
    List (List ℕ) → BFState → List ℕ → ℚ → Option (BFState × List ℕ × ℚ)
  | [], st, bestS, bestC => some (st, bestS, bestC)
  | s :: rest, st, bestS, bestC =>
    match bfSubtrees recur (splitToLists elements s) st with
    | none => none
    | some (st1, results) =>
      let totalCosts := (results.map BruteForceResult.costs).sum +
        ((costs.zip results).map (fun p => p.1 * p.2.weight)).sum
      if totalCosts < bestC ∨ (totalCosts = bestC ∧ bestS.length < s.length) then
        bfSplitLoop recur elements costs rest st1 s totalCosts
      else
        bfSplitLoop recur elements costs rest st1 bestS bestC

/-- The outer loop of `bruteforce_worker` over
`num_splits in range(1, max_num_splits + 1)`; for each `num_splits` the cost
vector is `list(access_costs(num_splits + 1, access_type))`. -/
def bfNumLoop (recur : List ℚ → BFState → Option (BFState × BruteForceResult))
    (a : AccessType) (elements : List ℚ) (nofElems : ℕ) :
    List ℕ → BFState → List ℕ → ℚ → Option (BFState × List ℕ × ℚ)
  | [], st, bestS, bestC => some (st, bestS, bestC)
  | k :: rest, st, bestS, bestC =>
    match bfSplitLoop recur elements (accessCosts (k + 1) a)
        (iterNsplitsWorker nofElems k 1 []) st bestS bestC with
    | none => none
    | some (st1, bestS1, bestC1) =>
      bfNumLoop recur a elements nofElems rest st1 bestS1 bestC1

/-- `bruteforce_worker(access_type, costs_cache, elements,
max_branching_factor, split_positions)` from `baue_baum.py`, with the two
dictionaries packed into a `BFState` and recursion bounded by fuel (`none`
means the fuel ran out; the Python recursion always terminates since every
sublist is strictly shorter, so any fuel above `elements.length` is enough).
On a cache hit it returns the cached cost with the recomputed total weight;
otherwise it searches all splits for all split counts
`1 .. min(max_branching_factor - 1, nof_elems - 1)` and finally stores the
best cost and best split under the key `elements` in both maps. -/
def bfWorker (a : AccessType) (mbf : ℕ) : ℕ → List ℚ → BFState →
    Option (BFState × BruteForceResult)
  | 0, _, _ => none
  | fuel + 1, elements, st =>
    let nofElems := elements.length
    let totalWeight := elements.sum
    match alookup st.cache elements with
    | some c => some (st, ⟨c, totalWeight⟩)
    | none =>
      let maxNumSplits := min (mbf - 1) (nofElems - 1)
      match bfNumLoop (bfWorker a mbf fuel) a elements nofElems
          (List.range' 1 maxNumSplits) st [] bfSentinel with
      | none => none
      | some (st1, bestS, bestC) =>
        some (⟨ainsert st1.cache elements bestC,
               ainsert st1.splitPositions elements bestS⟩,
              ⟨bestC, totalWeight⟩)

/-- `bruteforce(elements, max_branching_factor, access_type,
split_positions)`: runs `bruteforce_worker` with a fresh empty
`costs_cache` and the given `split_positions` table. -/
def bruteforce (elements : List ℚ) (mbf : ℕ) (a : AccessType)
    (splitPositions : List (List ℚ × List ℕ)) (fuel : ℕ) :
    Option (BFState × BruteForceResult) :=
  bfWorker a mbf fuel elements ⟨[], splitPositions⟩

/-- The recursion of `ratio_based_tree` over the parts
`folder_list[begin:end]` produced by one split, threading the state. -/
def rbtPartsW (recur : List ℚ → BFState → Option BFState) :
    List (List ℚ) → BFState → Option BFState
  | [], st => some st
  | p :: rest, st =>
    match recur p st with
    | none => none
    | some st1 => rbtPartsW recur rest st1

/-- `ratio_based_tree` from `baue_baum.py`, expressed directly on the weight
tuple `weight_tuple = tuple(weight_dict[f] for f in folder_list)` (the
function reads `folder_list` only through that tuple and through slicing,
see `ratioBasedTree_eq_W`).  The unused `cwd` parameter is dropped.  Fuel
bounds the recursion depth; `none` covers both fuel exhaustion (the Python
code genuinely recurses forever when `get_ratio_splitpositions` returns an
empty tuple for a list longer than `max_branching_factor`) and an exception
raised inside `get_ratio_splitpositions`. -/
def ratioBasedTreeW (a : AccessType) (thr mbf : ℕ) : ℕ → List ℚ → BFState → Option BFState
  | 0, _, _ => none
  | fuel + 1, wt, st =>
    let numElems := wt.length
    if (alookup st.cache wt).isSome then some st
    else if numElems < thr then
      (bfWorker a mbf (fuel + 1) wt st).map Prod.fst
    else if numElems ≤ mbf then
      let costs := accessCosts numElems a
      let totalCosts : ℚ :=
        if numElems = 1 then 0 else ((costs.zip wt).map (fun p => p.1 * p.2)).sum
      some ⟨ainsert st.cache wt totalCosts, ainsert st.splitPositions wt []⟩
    else
      match getRatioSplitpositions wt (getRatios (accessCosts mbf a)) with
      | none => none
      | some s =>
        let st1 : BFState := ⟨st.cache, ainsert st.splitPositions wt s⟩
        rbtPartsW (ratioBasedTreeW a thr mbf fuel) (splitToLists wt s) st1

/-- The recursion of `ratio_based_tree` over the `(begin, end)` pairs of
`zip(range_tuple[:-1], range_tuple[1:])`, slicing the folder list. -/
def rbtParts (recur : List String → BFState → Option BFState) (folderList : List String) :
    List (ℕ × ℕ) → BFState → Option BFState
  | [], st => some st
  | (b, e) :: rest, st =>
    match recur ((folderList.drop b).take (e - b)) st with
    | none => none
    | some st1 => rbtParts recur folderList rest st1

/-- `ratio_based_tree(access_type, bruteforce_threshold, costs_cache, cwd,
folder_list, max_branching_factor, split_positions, weight_dict)` from
`baue_baum.py`, on the folder names and the weight dictionary as in the
source (the unused `cwd` is dropped, the two dictionaries are a `BFState`,
and fuel bounds the recursion as in `ratioBasedTreeW`). -/
def ratioBasedTree (a : AccessType) (thr mbf : ℕ) : ℕ → List String → (String → ℚ) →
    BFState → Option BFState
  | 0, _, _, _ => none
  | fuel + 1, folderList, weightDict, st =>
    let wt := folderList.map weightDict
    let numElems := folderList.length
    if (alookup st.cache wt).isSome then some st
    else if numElems < thr then
      (bfWorker a mbf (fuel + 1) wt st).map Prod.fst
    else if numElems ≤ mbf then
      let costs := accessCosts numElems a
      let totalCosts : ℚ :=
        if numElems = 1 then 0 else ((costs.zip wt).map (fun p => p.1 * p.2)).sum
      some ⟨ainsert st.cache wt totalCosts, ainsert st.splitPositions wt []⟩
    else
      match getRatioSplitpositions wt (getRatios (accessCosts mbf a)) with
      | none => none
      | some s =>
        let st1 : BFState := ⟨st.cache, ainsert st.splitPositions wt s⟩
        let rangeT := 0 :: (s ++ [numElems])
        rbtParts (fun fl => ratioBasedTree a thr mbf fuel fl weightDict) folderList
          (rangeT.zip (rangeT.drop 1)) st1

/-- Evaluation of the parts of one node of the tree built by the ratio
heuristic: a part of length 1 contributes internal cost 0 without recursing,
any other part is evaluated recursively. -/
def rtcParts (recur : List ℚ → Option ℚ) : List (List ℚ) → Option (List ℚ)
  | [] => some []
  | p :: rest =>
    match (if p.length = 1 then some 0 else recur p) with
    | none => none
    | some c =>
      match rtcParts recur rest with
      | none => none
      | some cs => some (c :: cs)

/-- The total cost, under the cost model of `bruteforce_worker`, of the tree
that `get_ratio_splitpositions` applied recursively as in `ratio_based_tree`
(pure ratio mode, no bruteforce threshold) produces: a node of length at most
`max_branching_factor` is split elementwise and costs
`sum(c * w for c, w in zip(access_costs(num_elems), weight_tuple))` (0 for a
single element), exactly as the corresponding leaf case of
`ratio_based_tree`; a longer node is cut at
`get_ratio_splitpositions(weight_tuple, get_ratios(access_costs(mbf)))` and
costs the sum of its parts' internal costs plus
`sum(access_cost * part_weight)` with the access costs for the actual number
of parts, exactly as `bruteforce_worker` prices that same split.  `none`
models non-termination of the heuristic (an empty split repeats the same
node) and exceptions inside `get_ratio_splitpositions`. -/
def ratioTreeCost (a : AccessType) (mbf : ℕ) : ℕ → List ℚ → Option ℚ
  | 0, _ => none
  | fuel + 1, wt =>
    let numElems := wt.length
    if numElems ≤ mbf then
      some (if numElems = 1 then 0
        else (((accessCosts numElems a).zip wt).map (fun p => p.1 * p.2)).sum)
    else
      match getRatioSplitpositions wt (getRatios (accessCosts mbf a)) with
      | none => none
      | some s =>
        let parts := splitToLists wt s
        match rtcParts (ratioTreeCost a mbf fuel) parts with
        | none => none
        | some childCosts =>
          some (childCosts.sum +
            (((accessCosts (s.length + 1) a).zip (parts.map List.sum)).map
              (fun p => p.1 * p.2)).sum)

/-! ### Basic facts about `accessCosts` and `getRatios` -/

theorem accessCosts_length (b : ℕ) (hb : 1 ≤ b) (a : AccessType) :
    (accessCosts b a).length = b := by
  cases a with
  | WRAPPABLE =>
    simp only [accessCosts, List.length_cons, List.length_map, List.length_range']
    omega
  | LINEAR => simp only [accessCosts, List.length_map, List.length_range']
  | CONSTANT => simp only [accessCosts, List.length_replicate]

theorem accessCosts_pos (b : ℕ) (a : AccessType) :
    ∀ x ∈ accessCosts b a, 0 < x := by
  intro x hx
  cases a with
  | WRAPPABLE =>
    simp only [accessCosts, List.mem_cons, List.mem_map] at hx
    rcases hx with h | ⟨n, -, rfl⟩
    · simp [h]
    · positivity
  | LINEAR =>
    simp only [accessCosts, List.mem_map] at hx
    obtain ⟨n, hn, rfl⟩ := hx
    rw [List.mem_range'_1] at hn
    have h0 : 0 < n := hn.1
    exact_mod_cast h0
  | CONSTANT =>
    have hx' : x = 1 := List.eq_of_mem_replicate (by simpa [accessCosts] using hx)
    simp [hx']

theorem accessCosts_getD (b : ℕ) (a : AccessType) (i : ℕ) (hi : i < b) :
    (accessCosts b a).getD i 0 =
      (match a with
       | .CONSTANT => 1
       | .LINEAR => (i : ℚ) + 1
       | .WRAPPABLE => if i = 0 then 1 else ((min i (b - i) : ℕ) : ℚ) + 1) := by
  have hlen : (accessCosts b a).length = b := accessCosts_length b (by omega) a
  rw [List.getD_eq_getElem _ _ (by omega)]
  cases a with
  | WRAPPABLE =>
    cases i with
    | zero => simp [accessCosts]
    | succ j =>
      have hj : j < (List.range' 1 (b - 1)).length := by simp; omega
      simp only [accessCosts, List.getElem_cons_succ, List.getElem_map,
        List.getElem_range'_1]
      simp [Nat.add_comm 1 j]
  | LINEAR =>
    simp only [accessCosts, List.getElem_map, List.getElem_range'_1]
    push_cast
    ring
  | CONSTANT =>
    simp [accessCosts]

theorem accessCosts_sum_reciprocal_pos (b : ℕ) (hb : 1 ≤ b) (a : AccessType) :
    0 < ((accessCosts b a).map (fun c => 1 / c)).sum := by
  apply List.sum_pos
  · intro x hx
    simp only [List.mem_map] at hx
    obtain ⟨c, hc, rfl⟩ := hx
    have := accessCosts_pos b a c hc
    positivity
  · have := accessCosts_length b hb a
    intro h
    rw [List.map_eq_nil_iff] at h
    simp [h] at this
    omega

theorem list_sum_map_div {l : List ℚ} {s : ℚ} :
    (l.map (fun r => r / s)).sum = l.sum / s := by
  induction l with
  | nil => simp
  | cons x xs ih => simp [ih, add_div]

theorem getRatios_sum (costs : List ℚ) (h : 0 < (costs.map (fun c => 1 / c)).sum) :
    (getRatios costs).sum = 1 := by
  unfold getRatios
  rw [list_sum_map_div, div_self (ne_of_gt h)]

/-! ### Claim theorems C2, C3, C9 -/

/-- C2: for every branching factor `n ≥ 1` and every recognized policy,
`access_costs(n, policy)` yields exactly `n` values; under `CONSTANT` every
position costs 1, under `LINEAR` position `i` costs `i + 1`, and under
`WRAPPABLE` position 0 costs 1 and position `i > 0` costs
`min(i, n - i) + 1`. -/
theorem claim_access_costs_values (n : ℕ) (p : AccessType) (h : 1 ≤ n) :
    (accessCosts n p).length = n ∧
    ∀ i, i < n →
      (accessCosts n p).getD i 0 =
        (match p with
         | .CONSTANT => 1
         | .LINEAR => (i : ℚ) + 1
         | .WRAPPABLE => if i = 0 then 1 else ((min i (n - i) : ℕ) : ℚ) + 1) :=
  ⟨accessCosts_length n h p, fun i hi => accessCosts_getD n p i hi⟩

theorem claim_access_costs_values_witness :
    (accessCosts 4 AccessType.WRAPPABLE).length = 4 ∧
    ∀ i, i < 4 →
      (accessCosts 4 AccessType.WRAPPABLE).getD i 0 =
        (match AccessType.WRAPPABLE with
         | .CONSTANT => 1
         | .LINEAR => (i : ℚ) + 1
         | .WRAPPABLE => if i = 0 then 1 else ((min i (4 - i) : ℕ) : ℚ) + 1) :=
  claim_access_costs_values 4 AccessType.WRAPPABLE (by decide)

/-- C3: for every cost sequence produced by `access_costs` with branching
factor `≥ 2` under any recognized policy, `get_ratios` returns a sequence of
the same length whose sum is 1 within tolerance `1e-6` (over `ℚ` the sum is
exactly 1) and which satisfies `ratios[i] / ratios[j] = costs[j] / costs[i]`
for all valid indices. -/
theorem claim_get_ratios_contract (n : ℕ) (p : AccessType) (h : 2 ≤ n) :
    (getRatios (accessCosts n p)).length = (accessCosts n p).length ∧
    |(getRatios (accessCosts n p)).sum - 1| < 1 / 1000000 ∧
    ∀ i j, i < n → j < n →
      (getRatios (accessCosts n p)).getD i 0 / (getRatios (accessCosts n p)).getD j 0 =
        (accessCosts n p).getD j 0 / (accessCosts n p).getD i 0 := by
  have hb : 1 ≤ n := by omega
  have hlen : (accessCosts n p).length = n := accessCosts_length n hb p
  have hs : 0 < ((accessCosts n p).map (fun c => 1 / c)).sum :=
    accessCosts_sum_reciprocal_pos n hb p
  refine ⟨by simp [getRatios], ?_, ?_⟩
  · rw [getRatios_sum _ hs]
    norm_num
  · intro i j hi hj
    have hgetD : ∀ k, k < n → (getRatios (accessCosts n p)).getD k 0 =
        (1 / (accessCosts n p).getD k 0) / ((accessCosts n p).map (fun c => 1 / c)).sum := by
      intro k hk
      have hk1 : k < (accessCosts n p).length := by omega
      have hk2 : k < ((accessCosts n p).map (fun c => 1 / c)).length := by simp [hlen]; omega
      have hk3 : k < (getRatios (accessCosts n p)).length := by simp [getRatios, hlen]; omega
      rw [List.getD_eq_getElem _ _ hk3, List.getD_eq_getElem _ _ hk1]
      simp [getRatios]
    have hci : 0 < (accessCosts n p).getD i 0 := by
      rw [List.getD_eq_getElem _ _ (by omega)]
      exact accessCosts_pos n p _ (List.getElem_mem _)
    have hcj : 0 < (accessCosts n p).getD j 0 := by
      rw [List.getD_eq_getElem _ _ (by omega)]
      exact accessCosts_pos n p _ (List.getElem_mem _)
    rw [hgetD i hi, hgetD j hj, div_div_div_cancel_right₀ (ne_of_gt hs), one_div, one_div,
      div_inv_eq_mul, inv_mul_eq_div]

theorem claim_get_ratios_contract_witness :
    (getRatios (accessCosts 4 AccessType.LINEAR)).length =
      (accessCosts 4 AccessType.LINEAR).length ∧
    |(getRatios (accessCosts 4 AccessType.LINEAR)).sum - 1| < 1 / 1000000 ∧
    ∀ i j, i < 4 → j < 4 →
      (getRatios (accessCosts 4 AccessType.LINEAR)).getD i 0 /
          (getRatios (accessCosts 4 AccessType.LINEAR)).getD j 0 =
        (accessCosts 4 AccessType.LINEAR).getD j 0 /
          (accessCosts 4 AccessType.LINEAR).getD i 0 :=
  claim_get_ratios_contract 4 AccessType.LINEAR (by decide)

/-- C9 (corrected): `access_costs` raises an invalid-argument error for any
unrecognized policy, whatever the branching factor; but contrary to the
claim, for the recognized policies it does **not** raise on branching factor
0: `WRAPPABLE` returns the one-element list `[1]` and `LINEAR` and
`CONSTANT` return the empty list. -/
theorem claim_access_costs_errors :
    (∀ b : ℕ, accessCostsChecked b PolicyArg.unknown = Except.error ()) ∧
    accessCostsChecked 0 (PolicyArg.known AccessType.WRAPPABLE) = Except.ok [1] ∧
    accessCostsChecked 0 (PolicyArg.known AccessType.LINEAR) = Except.ok [] ∧
    accessCostsChecked 0 (PolicyArg.known AccessType.CONSTANT) = Except.ok [] := by
  refine ⟨fun b => rfl, ?_, rfl, rfl⟩
  simp [accessCostsChecked, accessCosts]

/-- C9 counterexample: calling `access_costs` with branching factor 0 and the
recognized policy `CONSTANT` does not raise; it returns the empty list. -/
theorem claim_access_costs_errors_cex :
    accessCostsChecked 0 (PolicyArg.known AccessType.CONSTANT) = Except.ok [] := rfl

/-! ### The split enumerator `iter_nsplits` -/

theorem pairwise_lt_head_bound (n : ℕ) :
    ∀ (u : List ℕ) (x : ℕ), List.Pairwise (· < ·) (x :: u) →
      (∀ y ∈ x :: u, y < n) → x + u.length < n := by
  intro u
  induction u with
  | nil =>
    intro x _ hb
    simpa using hb x (by simp)
  | cons y u' ih =>
    intro x hp hb
    have hxy : x < y := (List.pairwise_cons.mp hp).1 y (by simp)
    have hy : y + u'.length < n := by
      refine ih y (List.pairwise_cons.mp hp).2 ?_
      intro z hz
      exact hb z (List.mem_cons_of_mem _ hz)
    simp only [List.length_cons]
    omega

theorem iterNsplitsWorker_sound (n : ℕ) :
    ∀ (k s : ℕ) (pre t : List ℕ), 1 ≤ s → t ∈ iterNsplitsWorker n k s pre →
      ∃ u, t = pre ++ u ∧ u.length = k ∧ List.Pairwise (· < ·) u ∧
        ∀ y ∈ u, s ≤ y ∧ y ≤ n - 1 := by
  intro k
  induction k with
  | zero =>
    intro s pre t _ ht
    simp only [iterNsplitsWorker, List.mem_singleton] at ht
    exact ⟨[], by simp [ht], rfl, by simp, by simp⟩
  | succ k ih =>
    intro s pre t hs ht
    simp only [iterNsplitsWorker, List.mem_flatMap] at ht
    obtain ⟨x, hx, hmem⟩ := ht
    rw [List.mem_range'_1] at hx
    obtain ⟨u, rfl, hulen, hup, hub⟩ := ih (x + 1) (pre ++ [x]) _ (by omega) hmem
    refine ⟨x :: u, by simp, by simp [hulen], ?_, ?_⟩
    · rw [List.pairwise_cons]
      exact ⟨fun y hy => by have := (hub y hy).1; omega, hup⟩
    · intro y hy
      rcases List.mem_cons.mp hy with rfl | hy'
      · constructor
        · exact hx.1
        · omega
      · have := hub y hy'
        omega

theorem iterNsplitsWorker_complete (n : ℕ) :
    ∀ (k s : ℕ) (pre u : List ℕ), 1 ≤ s → u.length = k →
      List.Pairwise (· < ·) u → (∀ y ∈ u, s ≤ y ∧ y < n) →
      pre ++ u ∈ iterNsplitsWorker n k s pre := by
  intro k
  induction k with
  | zero =>
    intro s pre u _ hlen _ _
    rw [List.length_eq_zero.mp hlen]
    simp [iterNsplitsWorker]
  | succ k ih =>
    intro s pre u hs hlen hp hb
    match u, hlen with
    | x :: u', hlen =>
      have hxb : s ≤ x ∧ x < n := hb x (by simp)
      have hxu' : ∀ y ∈ u', x < y := (List.pairwise_cons.mp hp).1
      have hhead : x + u'.length < n :=
        pairwise_lt_head_bound n u' x hp (fun y hy => (hb y hy).2)
      have hu'len : u'.length = k := by simpa using hlen
      simp only [iterNsplitsWorker, List.mem_flatMap]
      refine ⟨x, ?_, ?_⟩
      · rw [List.mem_range'_1]
        constructor
        · exact hxb.1
        · omega
      · have := ih (x + 1) (pre ++ [x]) u' (by omega) hu'len
          (List.pairwise_cons.mp hp).2
          (fun y hy => ⟨by have := hxu' y hy; omega,
            (hb y (List.mem_cons_of_mem _ hy)).2⟩)
        simpa using this

theorem iterNsplitsWorker_length (n : ℕ) :
    ∀ (m k s : ℕ) (pre : List ℕ), 1 ≤ s → n ≤ s + m →
      (iterNsplitsWorker n k s pre).length = (n - s).choose k := by
  intro m
  induction m with
  | zero =>
    intro k s pre hs hns
    cases k with
    | zero => simp [iterNsplitsWorker, Nat.choose_zero_right]
    | succ k =>
      have hc : n - (k + 1) + 1 - s = 0 := by omega
      have hch : (n - s).choose (k + 1) = 0 :=
        Nat.choose_eq_zero_of_lt (by omega)
      simp [iterNsplitsWorker, hc, hch]
  | succ m ih =>
    intro k s pre hs hns
    cases k with
    | zero => simp [iterNsplitsWorker, Nat.choose_zero_right]
    | succ k =>
      by_cases hc : n - (k + 1) + 1 - s = 0
      · have hch : (n - s).choose (k + 1) = 0 :=
          Nat.choose_eq_zero_of_lt (by omega)
        simp [iterNsplitsWorker, hc, hch]
      · have hcpos : 0 < n - (k + 1) + 1 - s := Nat.pos_of_ne_zero hc
        have hsn : s < n := by omega
        have hsplit : List.range' s (n - (k + 1) + 1 - s) =
            s :: List.range' (s + 1) (n - (k + 1) + 1 - (s + 1)) := by
          have h1 : n - (k + 1) + 1 - s = (n - (k + 1) + 1 - (s + 1)) + 1 := by omega
          rw [h1, List.range'_succ]
        have htail : (List.range' (s + 1) (n - (k + 1) + 1 - (s + 1))).flatMap
              (fun splitPos => iterNsplitsWorker n k (splitPos + 1) (pre ++ [splitPos])) =
            iterNsplitsWorker n (k + 1) (s + 1) pre := by
          rw [iterNsplitsWorker]
        have hstep : iterNsplitsWorker n (k + 1) s pre =
            iterNsplitsWorker n k (s + 1) (pre ++ [s]) ++
              iterNsplitsWorker n (k + 1) (s + 1) pre := by
          rw [iterNsplitsWorker, hsplit, List.flatMap_cons, htail]
        rw [hstep, List.length_append,
          ih k (s + 1) (pre ++ [s]) (by omega) (by omega),
          ih (k + 1) (s + 1) pre (by omega) (by omega)]
        have hns' : n - s = (n - (s + 1)) + 1 := by omega
        rw [hns', Nat.choose_succ_succ]

theorem not_lex_lt_self : ∀ a : List ℕ, ¬ List.Lex (· < ·) a a := by
  intro a
  induction a with
  | nil => intro h; cases h
  | cons x a' ih =>
    intro h
    cases h with
    | cons h' => exact ih h'
    | rel hr => exact absurd hr (lt_irrefl x)

theorem lex_append_left {r : ℕ → ℕ → Prop} :
    ∀ (p a b : List ℕ), List.Lex r a b → List.Lex r (p ++ a) (p ++ b) := by
  intro p
  induction p with
  | nil => intro a b h; simpa using h
  | cons x p' ih => intro a b h; exact List.Lex.cons (ih a b h)

theorem iterNsplitsWorker_pairwise_lex (n : ℕ) :
    ∀ (k s : ℕ) (pre : List ℕ), 1 ≤ s →
      (iterNsplitsWorker n k s pre).Pairwise (List.Lex (· < ·)) := by
  intro k
  induction k with
  | zero =>
    intro s pre _
    simp [iterNsplitsWorker]
  | succ k ih =>
    intro s pre hs
    rw [iterNsplitsWorker, List.pairwise_flatMap]
    constructor
    · intro x _
      exact ih (x + 1) (pre ++ [x]) (by omega)
    · refine (List.pairwise_lt_range' s _ 1 (by norm_num)).imp ?_
      intro x y hxy
      intro a ha b hb
      obtain ⟨u, rfl, -, -, -⟩ :=
        iterNsplitsWorker_sound n k (x + 1) (pre ++ [x]) a (by omega) ha
      obtain ⟨v, rfl, -, -, -⟩ :=
        iterNsplitsWorker_sound n k (y + 1) (pre ++ [y]) b (by omega) hb
      rw [List.append_assoc, List.append_assoc]
      exact lex_append_left pre _ _ (List.Lex.rel hxy)

/-- C4: for `n ≥ 2` elements and `1 ≤ k ≤ n - 1` cuts, `iter_nsplits(n, k)`
yields exactly `C(n - 1, k)` distinct tuples, each a strictly increasing
`k`-tuple with entries in `[1, n - 1]`, enumerated in lexicographic order
with the lowest cut positions first. -/
theorem claim_iter_nsplits_enumeration (n k : ℕ) (hn : 2 ≤ n) (hk : 1 ≤ k)
    (hkn : k ≤ n - 1) :
    ∃ l, iterNsplits n k = .ok l ∧
      l.length = (n - 1).choose k ∧
      l.Nodup ∧
      l.Pairwise (List.Lex (· < ·)) ∧
      ∀ s ∈ l, s.length = k ∧ List.Chain' (· < ·) s ∧ ∀ x ∈ s, 1 ≤ x ∧ x ≤ n - 1 := by
  refine ⟨iterNsplitsWorker n k 1 [], ?_, ?_, ?_, ?_, ?_⟩
  · rw [iterNsplits, if_neg (by omega)]
  · exact iterNsplitsWorker_length n n k 1 [] (by omega) (by omega)
  · refine (iterNsplitsWorker_pairwise_lex n k 1 [] (by omega)).imp ?_
    intro a b hab heq
    exact absurd (heq ▸ hab) (not_lex_lt_self b)
  · exact iterNsplitsWorker_pairwise_lex n k 1 [] (by omega)
  · intro s hs
    obtain ⟨u, rfl, hlen, hp, hb⟩ :=
      iterNsplitsWorker_sound n k 1 [] s (by omega) hs
    exact ⟨hlen, List.chain'_iff_pairwise.mpr hp, hb⟩

theorem claim_iter_nsplits_enumeration_witness :
    ∃ l, iterNsplits 4 2 = .ok l ∧
      l.length = (4 - 1).choose 2 ∧
      l.Nodup ∧
      l.Pairwise (List.Lex (· < ·)) ∧
      ∀ s ∈ l, s.length = 2 ∧ List.Chain' (· < ·) s ∧ ∀ x ∈ s, 1 ≤ x ∧ x ≤ 4 - 1 :=
  claim_iter_nsplits_enumeration 4 2 (by decide) (by decide) (by decide)

/-! ### Concrete scenarios: the heavy trailing element and the single element -/

/-- C8: for the weight sequence of seven elements of weight 1.0 followed by
one element of weight 9247.0, with max branching factor 4 and every
recognized cost policy, the split positions computed by
`get_ratio_splitpositions` and those recorded by `bruteforce` for the full
sequence are both non-empty with last cut position 7 (an `Option.bind` with
`List.getLast?` equal to `some 7` states precisely that the function
succeeded, the list is non-empty, and its last entry is 7). -/
theorem claim_heavy_trailing_element : ∀ p : AccessType,
    (getRatioSplitpositions ((List.replicate 7 (1 : ℚ)) ++ [9247])
        (getRatios (accessCosts 4 p))).bind List.getLast? = some 7 ∧
    ((bruteforce ((List.replicate 7 (1 : ℚ)) ++ [9247]) 4 p [] 10).bind
        (fun pr => alookup pr.1.splitPositions ((List.replicate 7 (1 : ℚ)) ++ [9247]))).bind
      List.getLast? = some 7 := by
  intro p
  cases p
  · exact ⟨by decide, by decide⟩
  · exact ⟨by decide, by decide⟩
  · exact ⟨by decide, by decide⟩

/-- C5 (code bug): for a single-element sequence `[w]`, both partitioners do
record the empty split tuple, and the leaf case of `ratio_based_tree` caches
internal cost 0 as the claim states; but `bruteforce_worker` itself, whose
search loop is empty for one element, caches and returns its untouched
sentinel `best_split_cost = float(0xCAFFEBABE)` instead of 0, for every
policy and every `max_branching_factor ≥ 2`. -/
theorem claim_single_element_cost (w : ℚ) (p : AccessType) (mbf fuel : ℕ) :
    bruteforce [w] (mbf + 2) p [] (fuel + 1) =
      some (⟨[([w], bfSentinel)], [([w], [])]⟩, ⟨bfSentinel, w⟩) ∧
    ratioBasedTreeW p 1 (mbf + 2) (fuel + 1) [w] ⟨[], []⟩ =
      some ⟨[([w], 0)], [([w], [])]⟩ ∧
    bfSentinel = 0xCAFFEBABE ∧ (bfSentinel : ℚ) ≠ 0 := by
  refine ⟨?_, ?_, rfl, by norm_num [bfSentinel]⟩
  · have hmin : min (mbf + 2 - 1) ([w].length - 1) = 0 := by simp
    simp [bruteforce, bfWorker, bfNumLoop, alookup, ainsert, hmin]
  · rw [ratioBasedTreeW]
    simp [alookup, ainsert]

/-! ### Association-list lemmas -/

theorem alookup_ainsert_self {α : Type} (l : List (List ℚ × α)) (k : List ℚ) (v : α) :
    alookup (ainsert l k v) k = some v := by
  induction l with
  | nil => simp [ainsert, alookup]
  | cons p rest ih =>
    by_cases h : p.1 = k
    · simp [ainsert, h, alookup]
    · simp [ainsert, h, alookup, ih]

theorem alookup_ainsert_ne {α : Type} (l : List (List ℚ × α)) (k k' : List ℚ) (v : α)
    (h : k' ≠ k) : alookup (ainsert l k v) k' = alookup l k' := by
  induction l with
  | nil =>
    simp only [ainsert, alookup]
    rw [if_neg (Ne.symm h)]
  | cons p rest ih =>
    match p with
    | (pk, pv) =>
      by_cases h1 : pk = k
      · subst h1
        simp only [ainsert, if_pos rfl, alookup]
        rw [if_neg (Ne.symm h), if_neg (Ne.symm h)]
      · simp only [ainsert, if_neg h1, alookup]
        by_cases h2 : pk = k'
        · rw [if_pos h2, if_pos h2]
        · rw [if_neg h2, if_neg h2, ih]

theorem alookup_ainsert_isSome {α : Type} (l : List (List ℚ × α)) (k k' : List ℚ) (v : α)
    (h : (alookup l k').isSome) : (alookup (ainsert l k v) k').isSome := by
  by_cases hk : k' = k
  · subst hk
    simp [alookup_ainsert_self]
  · rwa [alookup_ainsert_ne _ _ _ _ hk]

/-! ### Well-formedness of `get_ratio_splitpositions` results -/

theorem grsRel_pos (cumr : List ℚ) (r2 : ℚ) (rel : ℕ) (h : grsRel cumr r2 = some rel) :
    1 ≤ rel := by
  unfold grsRel at h
  match heq : cumr.findIdx? (fun x => decide (r2 ≤ x)) with
  | none => rw [heq] at h; exact absurd h (by simp)
  | some ci =>
    rw [heq] at h
    have h' := Option.some.inj h
    subst h'
    by_cases h0 : ci = 0
    · simp [h0]
    · simp only [h0, if_false]
      split <;> omega

theorem grsLoop_good (w : List ℚ) :
    ∀ (rs : List ℚ) (acc : List ℕ) (baseInd : ℕ) (rsc : ℚ) (out : List ℕ),
      grsLoop w rs acc baseInd rsc = some out →
      List.Pairwise (· < ·) acc →
      (∀ x ∈ acc, 1 ≤ x ∧ x < w.length) →
      (∀ x ∈ acc, x ≤ baseInd) →
      List.Pairwise (· < ·) out ∧ (∀ x ∈ out, 1 ≤ x ∧ x < w.length) ∧
        out.length ≤ acc.length + rs.length := by
  intro rs
  induction rs with
  | nil =>
    intro acc baseInd rsc out h hp hb _
    rw [grsLoop] at h
    have h' := Option.some.inj h
    subst h'
    exact ⟨hp, hb, by simp⟩
  | cons r rest ih =>
    intro acc baseInd rsc out h hp hb hle
    rw [grsLoop] at h
    match heq : grsRel (grsCumr w (acc.getLastD 0)) (r / rsc) with
    | none => rw [heq] at h; exact absurd h (by simp)
    | some rel =>
      rw [heq] at h
      simp only at h
      have hrel : 1 ≤ rel := grsRel_pos _ _ _ heq
      by_cases h1 : w.length < baseInd + rel
      · rw [if_pos h1] at h
        exact absurd h (by simp)
      · rw [if_neg h1] at h
        by_cases h2 : baseInd + rel = w.length
        · rw [if_pos h2] at h
          have h' := Option.some.inj h
          subst h'
          exact ⟨hp, hb, by simp only [List.length_cons]; omega⟩
        · rw [if_neg h2] at h
          have hplt : baseInd + rel < w.length := by omega
          have hout := ih (acc ++ [baseInd + rel]) (baseInd + rel) (rsc * (1 - r / rsc)) out h
            (by
              rw [List.pairwise_append]
              refine ⟨hp, by simp, ?_⟩
              intro x hx y hy
              rw [List.mem_singleton] at hy
              subst hy
              have := hle x hx
              omega)
            (by
              intro x hx
              rcases List.mem_append.mp hx with hx' | hx'
              · exact hb x hx'
              · rw [List.mem_singleton] at hx'
                subst hx'
                exact ⟨by omega, hplt⟩)
            (by
              intro x hx
              rcases List.mem_append.mp hx with hx' | hx'
              · have := hle x hx'
                omega
              · rw [List.mem_singleton] at hx'
                omega)
          refine ⟨hout.1, hout.2.1, ?_⟩
          have hlen := hout.2.2
          rw [List.length_append, List.length_singleton] at hlen
          rw [List.length_cons]
          omega

theorem getRatioSplitpositions_good (w : List ℚ) (ratios : List ℚ) (out : List ℕ)
    (h : getRatioSplitpositions w ratios = some out) :
    List.Pairwise (· < ·) out ∧ (∀ x ∈ out, 1 ≤ x ∧ x < w.length) ∧
      out.length ≤ ratios.length - 1 := by
  have hg := grsLoop_good w ratios.dropLast [] 0 1 out h (by simp) (by simp) (by simp)
  refine ⟨hg.1, hg.2.1, ?_⟩
  have h1 := hg.2.2
  rw [List.length_nil, List.length_dropLast] at h1
  omega

/-! ### Generic preservation of a state predicate through the search loops -/

theorem bfSubtrees_pres (P : BFState → Prop)
    (recur : List ℚ → BFState → Option (BFState × BruteForceResult))
    (hrec : ∀ sub st out, P st → recur sub st = some out → P out.1) :
    ∀ subs st out, P st → bfSubtrees recur subs st = some out → P out.1 := by
  intro subs
  induction subs with
  | nil =>
    intro st out hP h
    rw [bfSubtrees] at h
    obtain rfl := Option.some.inj h
    exact hP
  | cons sub rest ih =>
    intro st out hP h
    rw [bfSubtrees] at h
    match heq : (if sub.length = 1 then some (st, (⟨0, sub.headD 0⟩ : BruteForceResult))
        else recur sub st) with
    | none => rw [heq] at h; exact absurd h (by simp)
    | some (st1, res) =>
      rw [heq] at h
      have hP1 : P st1 := by
        by_cases hl : sub.length = 1
        · rw [if_pos hl] at heq
          have := Option.some.inj heq
          rw [show st1 = st from congrArg Prod.fst this.symm]
          exact hP
        · rw [if_neg hl] at heq
          exact hrec sub st (st1, res) hP heq
      simp only at h
      match heq2 : bfSubtrees recur rest st1 with
      | none => rw [heq2] at h; exact absurd h (by simp)
      | some (st2, results) =>
        rw [heq2] at h
        simp only at h
        obtain rfl := Option.some.inj h
        exact ih st1 (st2, results) hP1 heq2

theorem bfSplitLoop_pres (P : BFState → Prop)
    (recur : List ℚ → BFState → Option (BFState × BruteForceResult))
    (hrec : ∀ sub st out, P st → recur sub st = some out → P out.1)
    (elements costs : List ℚ) :
    ∀ (L : List (List ℕ)) st bS bC out, P st →
      bfSplitLoop recur elements costs L st bS bC = some out → P out.1 := by
  intro L
  induction L with
  | nil =>
    intro st bS bC out hP h
    rw [bfSplitLoop] at h
    obtain rfl := Option.some.inj h
    exact hP
  | cons s rest ih =>
    intro st bS bC out hP h
    rw [bfSplitLoop] at h
    match heq : bfSubtrees recur (splitToLists elements s) st with
    | none => rw [heq] at h; exact absurd h (by simp)
    | some (st1, results) =>
      rw [heq] at h
      have hP1 : P st1 :=
        bfSubtrees_pres P recur hrec (splitToLists elements s) st (st1, results) hP heq
      simp only at h
      split at h
      · exact ih st1 _ _ out hP1 h
      · exact ih st1 _ _ out hP1 h

theorem bfNumLoop_pres (P : BFState → Prop)
    (recur : List ℚ → BFState → Option (BFState × BruteForceResult))
    (hrec : ∀ sub st out, P st → recur sub st = some out → P out.1)
    (a : AccessType) (elements : List ℚ) (nofElems : ℕ) :
    ∀ (ks : List ℕ) st bS bC out, P st →
      bfNumLoop recur a elements nofElems ks st bS bC = some out → P out.1 := by
  intro ks
  induction ks with
  | nil =>
    intro st bS bC out hP h
    rw [bfNumLoop] at h
    obtain rfl := Option.some.inj h
    exact hP
  | cons k rest ih =>
    intro st bS bC out hP h
    rw [bfNumLoop] at h
    match heq : bfSplitLoop recur elements (accessCosts (k + 1) a)
        (iterNsplitsWorker nofElems k 1 []) st bS bC with
    | none => rw [heq] at h; exact absurd h (by simp)
    | some (st1, bS1, bC1) =>
      rw [heq] at h
      have hP1 : P st1 :=
        bfSplitLoop_pres P recur hrec elements _ _ st bS bC (st1, bS1, bC1) hP heq
      exact ih st1 bS1 bC1 out hP1 h

/-! ### The best split returned by the loops is the initial one or a candidate -/

theorem bfSplitLoop_best_mem
    (recur : List ℚ → BFState → Option (BFState × BruteForceResult))
    (elements costs : List ℚ) :
    ∀ (L : List (List ℕ)) st bS bC out,
      bfSplitLoop recur elements costs L st bS bC = some out →
      out.2.1 = bS ∨ out.2.1 ∈ L := by
  intro L
  induction L with
  | nil =>
    intro st bS bC out h
    rw [bfSplitLoop] at h
    obtain rfl := Option.some.inj h
    exact Or.inl rfl
  | cons s rest ih =>
    intro st bS bC out h
    rw [bfSplitLoop] at h
    match heq : bfSubtrees recur (splitToLists elements s) st with
    | none => rw [heq] at h; exact absurd h (by simp)
    | some (st1, results) =>
      rw [heq] at h
      simp only at h
      split at h
      · rcases ih st1 _ _ out h with h1 | h1
        · exact Or.inr (h1 ▸ List.mem_cons_self s rest)
        · exact Or.inr (List.mem_cons_of_mem _ h1)
      · rcases ih st1 _ _ out h with h1 | h1
        · exact Or.inl h1
        · exact Or.inr (List.mem_cons_of_mem _ h1)

theorem bfNumLoop_best_mem
    (recur : List ℚ → BFState → Option (BFState × BruteForceResult))
    (a : AccessType) (elements : List ℚ) (nofElems : ℕ) :
    ∀ (ks : List ℕ) st bS bC out,
      bfNumLoop recur a elements nofElems ks st bS bC = some out →
      out.2.1 = bS ∨ ∃ k ∈ ks, out.2.1 ∈ iterNsplitsWorker nofElems k 1 [] := by
  intro ks
  induction ks with
  | nil =>
    intro st bS bC out h
    rw [bfNumLoop] at h
    obtain rfl := Option.some.inj h
    exact Or.inl rfl
  | cons k rest ih =>
    intro st bS bC out h
    rw [bfNumLoop] at h
    match heq : bfSplitLoop recur elements (accessCosts (k + 1) a)
        (iterNsplitsWorker nofElems k 1 []) st bS bC with
    | none => rw [heq] at h; exact absurd h (by simp)
    | some (st1, bS1, bC1) =>
      rw [heq] at h
      have h1 := bfSplitLoop_best_mem recur elements _ _ st bS bC (st1, bS1, bC1) heq
      rcases ih st1 bS1 bC1 out h with h2 | h2
      · rcases h1 with h1 | h1
        · exact Or.inl (h2.trans h1)
        · exact Or.inr ⟨k, List.mem_cons_self k rest, h2 ▸ h1⟩
      · obtain ⟨k', hk', hmem⟩ := h2
        exact Or.inr ⟨k', List.mem_cons_of_mem _ hk', hmem⟩

/-! ### Well-formedness of all stored split tuples (C6) -/

/-- A split-position table entry is well formed for its key: strictly
increasing cut positions, each in `[1, length - 1]` of the keyed sequence. -/
def entryGood (k : List ℚ) (v : List ℕ) : Prop :=
  List.Chain' (· < ·) v ∧ ∀ x ∈ v, 1 ≤ x ∧ x < k.length

/-- Every entry of a split-position table is well formed. -/
def TableGood (sp : List (List ℚ × List ℕ)) : Prop :=
  ∀ k v, alookup sp k = some v → entryGood k v

theorem entryGood_nil (k : List ℚ) : entryGood k [] := ⟨by simp, by simp⟩

theorem tableGood_ainsert (sp : List (List ℚ × List ℕ)) (k : List ℚ) (v : List ℕ)
    (hsp : TableGood sp) (hv : entryGood k v) : TableGood (ainsert sp k v) := by
  intro k' v' h
  by_cases hk : k' = k
  · subst hk
    rw [alookup_ainsert_self] at h
    exact Option.some.inj h ▸ hv
  · rw [alookup_ainsert_ne _ _ _ _ hk] at h
    exact hsp k' v' h

theorem iterNsplitsWorker_entryGood (wt : List ℚ) (k : ℕ) (s : List ℕ)
    (hs : s ∈ iterNsplitsWorker wt.length k 1 []) : entryGood wt s := by
  obtain ⟨u, rfl, -, hp, hb⟩ :=
    iterNsplitsWorker_sound wt.length k 1 [] s (by omega) hs
  refine ⟨List.chain'_iff_pairwise.mpr hp, ?_⟩
  intro x hx
  have := hb x hx
  omega

theorem getRatioSplitpositions_entryGood (wt : List ℚ) (ratios : List ℚ) (s : List ℕ)
    (h : getRatioSplitpositions wt ratios = some s) : entryGood wt s := by
  obtain ⟨hp, hb, -⟩ := getRatioSplitpositions_good wt ratios s h
  exact ⟨List.chain'_iff_pairwise.mpr hp, hb⟩

theorem bfWorker_tableGood (a : AccessType) (mbf : ℕ) :
    ∀ (fuel : ℕ) (wt : List ℚ) (st : BFState) (out : BFState × BruteForceResult),
      bfWorker a mbf fuel wt st = some out →
      TableGood st.splitPositions → TableGood out.1.splitPositions := by
  intro fuel
  induction fuel with
  | zero =>
    intro wt st out h
    rw [bfWorker] at h
    exact absurd h (by simp)
  | succ fuel ih =>
    intro wt st out h hG
    rw [bfWorker] at h
    simp only at h
    match heq : alookup st.cache wt with
    | some c =>
      rw [heq] at h
      simp only at h
      obtain rfl := Option.some.inj h
      exact hG
    | none =>
      rw [heq] at h
      simp only at h
      match heq2 : bfNumLoop (bfWorker a mbf fuel) a wt wt.length
          (List.range' 1 (min (mbf - 1) (wt.length - 1))) st [] bfSentinel with
      | none => rw [heq2] at h; exact absurd h (by simp)
      | some (st1, bS, bC) =>
        rw [heq2] at h
        simp only at h
        obtain rfl := Option.some.inj h
        have hG1 : TableGood st1.splitPositions :=
          bfNumLoop_pres (fun s => TableGood s.splitPositions) (bfWorker a mbf fuel)
            (fun sub st' out' hP h' => ih sub st' out' h' hP) a wt wt.length
            _ st [] bfSentinel (st1, bS, bC) hG heq2
        refine tableGood_ainsert _ _ _ hG1 ?_
        rcases bfNumLoop_best_mem (bfWorker a mbf fuel) a wt wt.length
            _ st [] bfSentinel (st1, bS, bC) heq2 with h1 | h1
        · rw [show bS = [] from h1]
          exact entryGood_nil wt
        · obtain ⟨k, -, hmem⟩ := h1
          exact iterNsplitsWorker_entryGood wt k bS hmem

theorem rbtPartsW_pres (P : BFState → Prop)
    (recur : List ℚ → BFState → Option BFState)
    (hrec : ∀ p st out, P st → recur p st = some out → P out) :
    ∀ (parts : List (List ℚ)) st out, P st → rbtPartsW recur parts st = some out → P out := by
  intro parts
  induction parts with
  | nil =>
    intro st out hP h
    rw [rbtPartsW] at h
    obtain rfl := Option.some.inj h
    exact hP
  | cons p rest ih =>
    intro st out hP h
    rw [rbtPartsW] at h
    match heq : recur p st with
    | none => rw [heq] at h; exact absurd h (by simp)
    | some st1 =>
      rw [heq] at h
      exact ih st1 out (hrec p st st1 hP heq) h

theorem ratioBasedTreeW_tableGood (a : AccessType) (thr mbf : ℕ) :
    ∀ (fuel : ℕ) (wt : List ℚ) (st : BFState) (out : BFState),
      ratioBasedTreeW a thr mbf fuel wt st = some out →
      TableGood st.splitPositions → TableGood out.splitPositions := by
  intro fuel
  induction fuel with
  | zero =>
    intro wt st out h
    rw [ratioBasedTreeW] at h
    exact absurd h (by simp)
  | succ fuel ih =>
    intro wt st out h hG
    rw [ratioBasedTreeW] at h
    simp only at h
    by_cases h1 : (alookup st.cache wt).isSome
    · rw [if_pos h1] at h
      obtain rfl := Option.some.inj h
      exact hG
    · rw [if_neg h1] at h
      by_cases h2 : wt.length < thr
      · rw [if_pos h2] at h
        match heq : bfWorker a mbf (fuel + 1) wt st with
        | none => rw [heq] at h; exact absurd h (by simp)
        | some (st1, res) =>
          rw [heq] at h
          obtain rfl := Option.some.inj h
          exact bfWorker_tableGood a mbf (fuel + 1) wt st (st1, res) heq hG
      · rw [if_neg h2] at h
        by_cases h3 : wt.length ≤ mbf
        · rw [if_pos h3] at h
          obtain rfl := Option.some.inj h
          exact tableGood_ainsert _ _ _ hG (entryGood_nil wt)
        · rw [if_neg h3] at h
          match heq : getRatioSplitpositions wt (getRatios (accessCosts mbf a)) with
          | none => rw [heq] at h; exact absurd h (by simp)
          | some s =>
            rw [heq] at h
            simp only at h
            have hG1 : TableGood (ainsert st.splitPositions wt s) :=
              tableGood_ainsert _ _ _ hG (getRatioSplitpositions_entryGood wt _ s heq)
            exact rbtPartsW_pres (fun s' => TableGood s'.splitPositions)
              (ratioBasedTreeW a thr mbf fuel)
              (fun p st' out' hP h' => ih p st' out' h' hP)
              (splitToLists wt s) ⟨st.cache, ainsert st.splitPositions wt s⟩ out hG1 h

/-! ### `ratio_based_tree` reads the folder list only through its weight tuple -/

theorem rbtParts_eq_W (wd : String → ℚ) (fl : List String)
    (recurN : List String → BFState → Option BFState)
    (recurW : List ℚ → BFState → Option BFState)
    (hrec : ∀ fl' st', recurN fl' st' = recurW (fl'.map wd) st') :
    ∀ (pairs : List (ℕ × ℕ)) (st : BFState),
      rbtParts recurN fl pairs st =
        rbtPartsW recurW (pairs.map (fun p => (((fl.map wd).drop p.1).take (p.2 - p.1)))) st := by
  intro pairs
  induction pairs with
  | nil => intro st; rw [rbtParts, List.map_nil, rbtPartsW]
  | cons pr rest ih =>
    intro st
    match pr with
    | (b, e) =>
      rw [rbtParts, List.map_cons, rbtPartsW]
      have hslice : ((fl.drop b).take (e - b)).map wd = ((fl.map wd).drop b).take (e - b) := by
        rw [List.map_take, List.map_drop]
      rw [hrec ((fl.drop b).take (e - b)) st, hslice]
      match recurW (((fl.map wd).drop b).take (e - b)) st with
      | none => rfl
      | some st1 => exact ih st1

theorem splitToLists_eq_pairs {α : Type} (l : List α) (s : List ℕ) :
    splitToLists l s =
      ((0 :: (s ++ [l.length])).zip ((0 :: (s ++ [l.length])).drop 1)).map
        (fun p => ((l.drop p.1).take (p.2 - p.1))) := rfl

theorem ratioBasedTree_eq_W (a : AccessType) (thr mbf : ℕ) (wd : String → ℚ) :
    ∀ (fuel : ℕ) (fl : List String) (st : BFState),
      ratioBasedTree a thr mbf fuel fl wd st = ratioBasedTreeW a thr mbf fuel (fl.map wd) st := by
  intro fuel
  induction fuel with
  | zero => intro fl st; rw [ratioBasedTree, ratioBasedTreeW]
  | succ fuel ih =>
    intro fl st
    rw [ratioBasedTree, ratioBasedTreeW]
    simp only [List.length_map]
    by_cases h1 : (alookup st.cache (fl.map wd)).isSome
    · rw [if_pos h1, if_pos h1]
    · rw [if_neg h1, if_neg h1]
      by_cases h2 : fl.length < thr
      · rw [if_pos h2, if_pos h2]
      · rw [if_neg h2, if_neg h2]
        by_cases h3 : fl.length ≤ mbf
        · rw [if_pos h3, if_pos h3]
        · rw [if_neg h3, if_neg h3]
          match getRatioSplitpositions (fl.map wd) (getRatios (accessCosts mbf a)) with
          | none => rfl
          | some s =>
            simp only
            rw [splitToLists_eq_pairs, List.length_map]
            exact rbtParts_eq_W wd fl _ _ (fun fl' st' => ih fl' st') _ _

theorem tableGood_nil : TableGood [] := by
  intro k v h
  simp [alookup] at h

/-- C6: every split-position tuple stored in the split-position table, by
`bruteforce_worker` or by `ratio_based_tree`, for a sequence of length `L`,
is strictly increasing with every entry in `[1, L - 1]` (the empty tuple
satisfying this vacuously): any completed run started from a table all of
whose entries satisfy this (in particular the empty table) leaves only such
entries, so cutting at the stored positions yields contiguous,
non-overlapping, order-preserving parts. -/
theorem claim_stored_splits_wellformed :
    (∀ (a : AccessType) (mbf fuel : ℕ) (wt : List ℚ) (st : BFState)
       (out : BFState × BruteForceResult),
       bfWorker a mbf fuel wt st = some out → TableGood st.splitPositions →
       TableGood out.1.splitPositions) ∧
    (∀ (a : AccessType) (thr mbf fuel : ℕ) (fl : List String) (wd : String → ℚ)
       (st : BFState) (out : BFState),
       ratioBasedTree a thr mbf fuel fl wd st = some out → TableGood st.splitPositions →
       TableGood out.splitPositions) := by
  constructor
  · exact fun a mbf fuel wt st out h hG => bfWorker_tableGood a mbf fuel wt st out h hG
  · intro a thr mbf fuel fl wd st out h hG
    rw [ratioBasedTree_eq_W] at h
    exact ratioBasedTreeW_tableGood a thr mbf fuel (fl.map wd) st out h hG

theorem claim_stored_splits_wellformed_witness :
    ∃ out, bfWorker AccessType.WRAPPABLE 2 3 [(1 : ℚ), 2] ⟨[], []⟩ = some out ∧
      TableGood out.1.splitPositions := by
  have h := claim_stored_splits_wellformed.1 AccessType.WRAPPABLE 2 3 [(1 : ℚ), 2] ⟨[], []⟩
  exact ⟨_, rfl, h _ rfl tableGood_nil⟩

/-- C7: for any two folder lists whose name-to-weight mappings induce the
same weight tuple, `ratio_based_tree` with the same policy, max branching
factor, and threshold produces identical results (split-position table and
cost cache), and `bruteforce_worker` likewise depends only on the weight
tuple: the computation never depends on the item names. -/
theorem claim_weight_signature_determines (a : AccessType) (thr mbf fuel : ℕ)
    (fl1 fl2 : List String) (wd1 wd2 : String → ℚ) (st : BFState)
    (h : fl1.map wd1 = fl2.map wd2) :
    ratioBasedTree a thr mbf fuel fl1 wd1 st = ratioBasedTree a thr mbf fuel fl2 wd2 st ∧
    bfWorker a mbf fuel (fl1.map wd1) st = bfWorker a mbf fuel (fl2.map wd2) st := by
  constructor
  · rw [ratioBasedTree_eq_W, ratioBasedTree_eq_W, h]
  · rw [h]

theorem claim_weight_signature_determines_witness :
    ratioBasedTree AccessType.WRAPPABLE 1 2 6 ["a", "b", "c"]
        (fun s => if s = "c" then 5 else 1) ⟨[], []⟩ =
      ratioBasedTree AccessType.WRAPPABLE 1 2 6 ["x", "y", "z"]
        (fun s => if s = "z" then 5 else 1) ⟨[], []⟩ ∧
    bfWorker AccessType.WRAPPABLE 2 6
        (["a", "b", "c"].map (fun s => if s = "c" then 5 else 1)) ⟨[], []⟩ =
      bfWorker AccessType.WRAPPABLE 2 6
        (["x", "y", "z"].map (fun s => if s = "z" then 5 else 1)) ⟨[], []⟩ :=
  claim_weight_signature_determines AccessType.WRAPPABLE 1 2 6 _ _ _ _ _ rfl

/-! ### Closure of the split-position table under its own recursion (C10) -/

/-- Every key of the cost cache also has a split-position entry (within one
run, `bruteforce_worker` and the leaf case of `ratio_based_tree` always
write both maps together, while the ratio branch writes only the split
table). -/
def domSub (c : List (List ℚ × ℚ)) (sp : List (List ℚ × List ℕ)) : Prop :=
  ∀ k, (alookup c k).isSome → (alookup sp k).isSome

/-- The split-position table is closed under its own recursion: every stored
non-empty split cuts its key into parts whose sub-tuples of size ≥ 2 have
their own entries. -/
def TableClosed (sp : List (List ℚ × List ℕ)) : Prop :=
  ∀ k v, alookup sp k = some v → v ≠ [] →
    ∀ p ∈ splitToLists k v, 2 ≤ p.length → (alookup sp p).isSome

/-- What one completed run of a recursive worker guarantees about the state
transition: the cache-to-table domain inclusion holds afterwards, both maps
only grow, and every entry of the final table was either untouched or is
closed with respect to the final table. -/
structure SeqPost (st st' : BFState) : Prop where
  dom : domSub st'.cache st'.splitPositions
  spMono : ∀ k, (alookup st.splitPositions k).isSome → (alookup st'.splitPositions k).isSome
  cacheMono : ∀ k, (alookup st.cache k).isSome → (alookup st'.cache k).isSome
  closure : ∀ k v, alookup st'.splitPositions k = some v →
    alookup st.splitPositions k = some v ∨
      (v ≠ [] → ∀ p ∈ splitToLists k v, 2 ≤ p.length →
        (alookup st'.splitPositions p).isSome)

theorem seqPost_refl (st : BFState) (hdom : domSub st.cache st.splitPositions) :
    SeqPost st st :=
  ⟨hdom, fun _ h => h, fun _ h => h, fun _ _ h => Or.inl h⟩

theorem seqPost_comp {st0 st1 st2 : BFState} (h01 : SeqPost st0 st1)
    (h12 : SeqPost st1 st2) : SeqPost st0 st2 := by
  refine ⟨h12.dom, fun k h => h12.spMono k (h01.spMono k h),
    fun k h => h12.cacheMono k (h01.cacheMono k h), ?_⟩
  intro k v h
  rcases h12.closure k v h with h1 | h1
  · rcases h01.closure k v h1 with h2 | h2
    · exact Or.inl h2
    · exact Or.inr (fun hne p hp hlen => h12.spMono p (h2 hne p hp hlen))
  · exact Or.inr h1

/-- The closure contract of the recursive bruteforce call. -/
def RecurClosure (recur : List ℚ → BFState → Option (BFState × BruteForceResult)) : Prop :=
  ∀ sub st out, domSub st.cache st.splitPositions → recur sub st = some out →
    SeqPost st out.1 ∧ (alookup out.1.cache sub).isSome

theorem bfSubtrees_closure
    (recur : List ℚ → BFState → Option (BFState × BruteForceResult))
    (hrec : RecurClosure recur) :
    ∀ (subs : List (List ℚ)) st out, domSub st.cache st.splitPositions →
      bfSubtrees recur subs st = some out →
      SeqPost st out.1 ∧ ∀ p ∈ subs, 2 ≤ p.length → (alookup out.1.cache p).isSome := by
  intro subs
  induction subs with
  | nil =>
    intro st out hdom h
    rw [bfSubtrees] at h
    obtain rfl := Option.some.inj h
    exact ⟨seqPost_refl st hdom, by simp⟩
  | cons sub rest ih =>
    intro st out hdom h
    rw [bfSubtrees] at h
    match heq : (if sub.length = 1 then some (st, (⟨0, sub.headD 0⟩ : BruteForceResult))
        else recur sub st) with
    | none => rw [heq] at h; exact absurd h (by simp)
    | some (st1, res) =>
      rw [heq] at h
      simp only at h
      have hstep : SeqPost st st1 ∧ (2 ≤ sub.length → (alookup st1.cache sub).isSome) := by
        by_cases hl : sub.length = 1
        · rw [if_pos hl] at heq
          have hst : st1 = st := congrArg Prod.fst (Option.some.inj heq).symm
          subst hst
          exact ⟨seqPost_refl st1 hdom, fun h2 => by omega⟩
        · rw [if_neg hl] at heq
          have := hrec sub st (st1, res) hdom heq
          exact ⟨this.1, fun _ => this.2⟩
      match heq2 : bfSubtrees recur rest st1 with
      | none => rw [heq2] at h; exact absurd h (by simp)
      | some (st2, results) =>
        rw [heq2] at h
        simp only at h
        obtain rfl := Option.some.inj h
        have hrest := ih st1 (st2, results) hstep.1.dom heq2
        refine ⟨seqPost_comp hstep.1 hrest.1, ?_⟩
        intro p hp hlen
        rcases List.mem_cons.mp hp with rfl | hp'
        · exact hrest.1.cacheMono p (hstep.2 hlen)
        · exact hrest.2 p hp' hlen

theorem bfSplitLoop_closure
    (recur : List ℚ → BFState → Option (BFState × BruteForceResult))
    (hrec : RecurClosure recur) (elements costs : List ℚ) :
    ∀ (L : List (List ℕ)) st bS bC out, domSub st.cache st.splitPositions →
      (bS = [] ∨ ∀ p ∈ splitToLists elements bS, 2 ≤ p.length →
        (alookup st.cache p).isSome) →
      bfSplitLoop recur elements costs L st bS bC = some out →
      SeqPost st out.1 ∧
        (out.2.1 = [] ∨ ∀ p ∈ splitToLists elements out.2.1, 2 ≤ p.length →
          (alookup out.1.cache p).isSome) := by
  intro L
  induction L with
  | nil =>
    intro st bS bC out hdom hbest h
    rw [bfSplitLoop] at h
    obtain rfl := Option.some.inj h
    exact ⟨seqPost_refl st hdom, hbest⟩
  | cons s rest ih =>
    intro st bS bC out hdom hbest h
    rw [bfSplitLoop] at h
    match heq : bfSubtrees recur (splitToLists elements s) st with
    | none => rw [heq] at h; exact absurd h (by simp)
    | some (st1, results) =>
      rw [heq] at h
      have hsub := bfSubtrees_closure recur hrec (splitToLists elements s) st
        (st1, results) hdom heq
      simp only at h
      split at h
      · have hres := ih st1 s _ out hsub.1.dom (Or.inr hsub.2) h
        exact ⟨seqPost_comp hsub.1 hres.1, hres.2⟩
      · have hbest1 : bS = [] ∨ ∀ p ∈ splitToLists elements bS, 2 ≤ p.length →
            (alookup st1.cache p).isSome := by
          rcases hbest with hb | hb
          · exact Or.inl hb
          · exact Or.inr (fun p hp hlen => hsub.1.cacheMono p (hb p hp hlen))
        have hres := ih st1 bS _ out hsub.1.dom hbest1 h
        exact ⟨seqPost_comp hsub.1 hres.1, hres.2⟩

theorem bfNumLoop_closure
    (recur : List ℚ → BFState → Option (BFState × BruteForceResult))
    (hrec : RecurClosure recur) (a : AccessType) (elements : List ℚ) (nofElems : ℕ) :
    ∀ (ks : List ℕ) st bS bC out, domSub st.cache st.splitPositions →
      (bS = [] ∨ ∀ p ∈ splitToLists elements bS, 2 ≤ p.length →
        (alookup st.cache p).isSome) →
      bfNumLoop recur a elements nofElems ks st bS bC = some out →
      SeqPost st out.1 ∧
        (out.2.1 = [] ∨ ∀ p ∈ splitToLists elements out.2.1, 2 ≤ p.length →
          (alookup out.1.cache p).isSome) := by
  intro ks
  induction ks with
  | nil =>
    intro st bS bC out hdom hbest h
    rw [bfNumLoop] at h
    obtain rfl := Option.some.inj h
    exact ⟨seqPost_refl st hdom, hbest⟩
  | cons k rest ih =>
    intro st bS bC out hdom hbest h
    rw [bfNumLoop] at h
    match heq : bfSplitLoop recur elements (accessCosts (k + 1) a)
        (iterNsplitsWorker nofElems k 1 []) st bS bC with
    | none => rw [heq] at h; exact absurd h (by simp)
    | some (st1, bS1, bC1) =>
      rw [heq] at h
      have h1 := bfSplitLoop_closure recur hrec elements _ _ st bS bC (st1, bS1, bC1)
        hdom hbest heq
      have h2 := ih st1 bS1 bC1 out h1.1.dom h1.2 h
      exact ⟨seqPost_comp h1.1 h2.1, h2.2⟩

theorem bfWorker_closure (a : AccessType) (mbf : ℕ) :
    ∀ fuel, RecurClosure (bfWorker a mbf fuel) := by
  intro fuel
  induction fuel with
  | zero =>
    intro sub st out _ h
    rw [bfWorker] at h
    exact absurd h (by simp)
  | succ fuel ih =>
    intro sub st out hdom h
    rw [bfWorker] at h
    simp only at h
    match heq : alookup st.cache sub with
    | some c =>
      rw [heq] at h
      simp only at h
      obtain rfl := Option.some.inj h
      exact ⟨seqPost_refl st hdom, by simp [heq]⟩
    | none =>
      rw [heq] at h
      simp only at h
      match heq2 : bfNumLoop (bfWorker a mbf fuel) a sub sub.length
          (List.range' 1 (min (mbf - 1) (sub.length - 1))) st [] bfSentinel with
      | none => rw [heq2] at h; exact absurd h (by simp)
      | some (st1, bS, bC) =>
        rw [heq2] at h
        simp only at h
        obtain rfl := Option.some.inj h
        have hloop := bfNumLoop_closure (bfWorker a mbf fuel) ih a sub sub.length
          _ st [] bfSentinel (st1, bS, bC) hdom (Or.inl rfl) heq2
        have hins : SeqPost st1
            ⟨ainsert st1.cache sub bC, ainsert st1.splitPositions sub bS⟩ := by
          refine ⟨?_, ?_, ?_, ?_⟩
          · intro k hk
            by_cases hks : k = sub
            · subst hks
              simp [alookup_ainsert_self]
            · rw [alookup_ainsert_ne _ _ _ _ hks] at hk ⊢
              exact hloop.1.dom k hk
          · intro k hk
            exact alookup_ainsert_isSome _ _ _ _ hk
          · intro k hk
            exact alookup_ainsert_isSome _ _ _ _ hk
          · intro k v hk
            by_cases hks : k = sub
            · subst hks
              rw [alookup_ainsert_self] at hk
              obtain rfl := Option.some.inj hk
              refine Or.inr ?_
              intro hne p hp hlen
              rcases hloop.2 with hb | hb
              · exact absurd hb hne
              · have := hloop.1.dom p (hb p hp hlen)
                exact alookup_ainsert_isSome _ _ _ _ this
            · rw [alookup_ainsert_ne _ _ _ _ hks] at hk
              exact Or.inl hk
        exact ⟨seqPost_comp hloop.1 hins, by simp [alookup_ainsert_self]⟩

/-- The closure contract of the recursive `ratio_based_tree` call. -/
def RbtClosure (recur : List ℚ → BFState → Option BFState) : Prop :=
  ∀ p st out, domSub st.cache st.splitPositions → recur p st = some out →
    SeqPost st out ∧ (alookup out.splitPositions p).isSome

theorem rbtPartsW_closure (recur : List ℚ → BFState → Option BFState)
    (hrec : RbtClosure recur) :
    ∀ (parts : List (List ℚ)) st out, domSub st.cache st.splitPositions →
      rbtPartsW recur parts st = some out →
      SeqPost st out ∧ ∀ p ∈ parts, (alookup out.splitPositions p).isSome := by
  intro parts
  induction parts with
  | nil =>
    intro st out hdom h
    rw [rbtPartsW] at h
    obtain rfl := Option.some.inj h
    exact ⟨seqPost_refl st hdom, by simp⟩
  | cons p rest ih =>
    intro st out hdom h
    rw [rbtPartsW] at h
    match heq : recur p st with
    | none => rw [heq] at h; exact absurd h (by simp)
    | some st1 =>
      rw [heq] at h
      have h1 := hrec p st st1 hdom heq
      have h2 := ih st1 out h1.1.dom h
      refine ⟨seqPost_comp h1.1 h2.1, ?_⟩
      intro q hq
      rcases List.mem_cons.mp hq with rfl | hq'
      · exact h2.1.spMono q h1.2
      · exact h2.2 q hq'

theorem ratioBasedTreeW_closure (a : AccessType) (thr mbf : ℕ) :
    ∀ fuel, RbtClosure (ratioBasedTreeW a thr mbf fuel) := by
  intro fuel
  induction fuel with
  | zero =>
    intro wt st out _ h
    rw [ratioBasedTreeW] at h
    exact absurd h (by simp)
  | succ fuel ih =>
    intro wt st out hdom h
    rw [ratioBasedTreeW] at h
    simp only at h
    by_cases h1 : (alookup st.cache wt).isSome
    · rw [if_pos h1] at h
      obtain rfl := Option.some.inj h
      exact ⟨seqPost_refl st hdom, hdom wt h1⟩
    · rw [if_neg h1] at h
      by_cases h2 : wt.length < thr
      · rw [if_pos h2] at h
        match heq : bfWorker a mbf (fuel + 1) wt st with
        | none => rw [heq] at h; exact absurd h (by simp)
        | some (st1, res) =>
          rw [heq] at h
          obtain rfl := Option.some.inj h
          have := bfWorker_closure a mbf (fuel + 1) wt st (st1, res) hdom heq
          exact ⟨this.1, this.1.dom wt this.2⟩
      · rw [if_neg h2] at h
        by_cases h3 : wt.length ≤ mbf
        · rw [if_pos h3] at h
          obtain rfl := Option.some.inj h
          refine ⟨⟨?_, ?_, ?_, ?_⟩, by simp [alookup_ainsert_self]⟩
          · intro k hk
            by_cases hks : k = wt
            · subst hks
              simp [alookup_ainsert_self]
            · rw [alookup_ainsert_ne _ _ _ _ hks] at hk ⊢
              exact hdom k hk
          · intro k hk
            exact alookup_ainsert_isSome _ _ _ _ hk
          · intro k hk
            exact alookup_ainsert_isSome _ _ _ _ hk
          · intro k v hk
            by_cases hks : k = wt
            · subst hks
              rw [alookup_ainsert_self] at hk
              obtain rfl := Option.some.inj hk
              exact Or.inr (fun hne => absurd rfl hne)
            · rw [alookup_ainsert_ne _ _ _ _ hks] at hk
              exact Or.inl hk
        · rw [if_neg h3] at h
          match heq : getRatioSplitpositions wt (getRatios (accessCosts mbf a)) with
          | none => rw [heq] at h; exact absurd h (by simp)
          | some s =>
            rw [heq] at h
            simp only at h
            have hdom1 : domSub st.cache (ainsert st.splitPositions wt s) := by
              intro k hk
              exact alookup_ainsert_isSome _ _ _ _ (hdom k hk)
            have hparts := rbtPartsW_closure (ratioBasedTreeW a thr mbf fuel) ih
              (splitToLists wt s) ⟨st.cache, ainsert st.splitPositions wt s⟩ out hdom1 h
            have hwt1 : (alookup (ainsert st.splitPositions wt s) wt).isSome := by
              simp [alookup_ainsert_self]
            refine ⟨⟨hparts.1.dom, ?_, hparts.1.cacheMono, ?_⟩, hparts.1.spMono wt hwt1⟩
            · intro k hk
              exact hparts.1.spMono k (alookup_ainsert_isSome _ _ _ _ hk)
            · intro k v hk
              rcases hparts.1.closure k v hk with hk1 | hk1
              · by_cases hks : k = wt
                · subst hks
                  rw [alookup_ainsert_self] at hk1
                  obtain rfl := Option.some.inj hk1
                  refine Or.inr ?_
                  intro _ p hp hlen
                  exact hparts.2 p hp
                · rw [alookup_ainsert_ne _ _ _ _ hks] at hk1
                  exact Or.inl hk1
              · exact Or.inr hk1

theorem domSub_nil : domSub [] [] := by
  intro k hk
  simp [alookup] at hk

theorem tableClosed_of_seqPost {st' : BFState} (h : SeqPost ⟨[], []⟩ st') :
    TableClosed st'.splitPositions := by
  intro k v hv hne p hp hlen
  rcases h.closure k v hv with h1 | h1
  · simp [alookup] at h1
  · exact h1 hne p hp hlen

/-- C10: after a top-level `bruteforce_worker` or `ratio_based_tree` call on
fresh empty maps completes, the split-position table is closed under its own
recursion: the input's weight signature has an entry, and for every stored
signature with a non-empty split tuple, every part of size ≥ 2 obtained by
cutting at those positions also has an entry — exactly the lookups
`move_recursively` performs (the signature of the list it holds, then of
every group of size > 1). -/
theorem claim_table_closure :
    (∀ (a : AccessType) (mbf fuel : ℕ) (wt : List ℚ) (out : BFState × BruteForceResult),
       bfWorker a mbf fuel wt ⟨[], []⟩ = some out →
       (alookup out.1.splitPositions wt).isSome ∧ TableClosed out.1.splitPositions) ∧
    (∀ (a : AccessType) (thr mbf fuel : ℕ) (fl : List String) (wd : String → ℚ)
       (out : BFState),
       ratioBasedTree a thr mbf fuel fl wd ⟨[], []⟩ = some out →
       (alookup out.splitPositions (fl.map wd)).isSome ∧ TableClosed out.splitPositions) := by
  constructor
  · intro a mbf fuel wt out h
    have hc := bfWorker_closure a mbf fuel wt ⟨[], []⟩ out domSub_nil h
    exact ⟨hc.1.dom wt hc.2, tableClosed_of_seqPost hc.1⟩
  · intro a thr mbf fuel fl wd out h
    rw [ratioBasedTree_eq_W] at h
    have hc := ratioBasedTreeW_closure a thr mbf fuel (fl.map wd) ⟨[], []⟩ out domSub_nil h
    exact ⟨hc.2, tableClosed_of_seqPost hc.1⟩

theorem claim_table_closure_witness :
    ∃ out, bfWorker AccessType.CONSTANT 3 4 [(1 : ℚ), 2, 3] ⟨[], []⟩ = some out ∧
      (alookup out.1.splitPositions [(1 : ℚ), 2, 3]).isSome ∧
      TableClosed out.1.splitPositions := by
  have h := claim_table_closure.1 AccessType.CONSTANT 3 4 [(1 : ℚ), 2, 3]
  exact ⟨_, rfl, h _ rfl⟩

/-! ### Facts about `split_to_lists` -/

theorem splitToLists_nil {α : Type} (w : List α) : splitToLists w [] = [w] := by
  simp [splitToLists]

theorem splitToLists_length {α : Type} (w : List α) (s : List ℕ) :
    (splitToLists w s).length = s.length + 1 := by
  simp [splitToLists]

theorem zip_consec_lt (n : ℕ) :
    ∀ (l : List ℕ), List.Chain' (· < ·) l → (∀ x ∈ l, x ≤ n) →
      ∀ pr ∈ l.zip (l.drop 1), pr.1 < pr.2 ∧ pr.2 ≤ n := by
  intro l
  induction l with
  | nil => simp
  | cons a rest ih =>
    intro hc hb pr hpr
    match rest with
    | [] => simp at hpr
    | b :: r2 =>
      simp only [List.drop_one, List.tail_cons, List.zip_cons_cons, List.mem_cons] at hpr
      rcases hpr with rfl | hpr'
      · exact ⟨(List.chain'_cons.mp hc).1, hb b (by simp)⟩
      · have := ih (List.chain'_cons.mp hc).2 (fun x hx => hb x (List.mem_cons_of_mem _ hx))
        have h2 : (b :: r2).drop 1 = r2 := by simp
        refine this pr ?_
        rw [h2]
        exact hpr'

theorem split_chain (n : ℕ) (s : List ℕ) (hne : s ≠ [])
    (hp : List.Pairwise (· < ·) s) (hb : ∀ x ∈ s, 1 ≤ x ∧ x < n) :
    List.Chain' (· < ·) (0 :: (s ++ [n])) ∧ ∀ x ∈ 0 :: (s ++ [n]), x ≤ n := by
  have hn2 : 1 ≤ n := by
    match s, hne with
    | x :: _, _ =>
      have := hb x (by simp)
      omega
  constructor
  · rw [List.chain'_iff_pairwise, List.pairwise_cons]
    constructor
    · intro y hy
      rcases List.mem_append.mp hy with hy' | hy'
      · have := hb y hy'
        omega
      · rw [List.mem_singleton] at hy'
        omega
    · rw [List.pairwise_append]
      refine ⟨hp, by simp, ?_⟩
      intro x hx y hy
      rw [List.mem_singleton] at hy
      subst hy
      exact (hb x hx).2
  · intro x hx
    rcases List.mem_cons.mp hx with rfl | hx'
    · omega
    · rcases List.mem_append.mp hx' with hx'' | hx''
      · have := hb x hx''
        omega
      · rw [List.mem_singleton] at hx''
        omega

theorem splitToLists_part_lengths {α : Type} (w : List α) (s : List ℕ) (hne : s ≠ [])
    (hp : List.Pairwise (· < ·) s) (hb : ∀ x ∈ s, 1 ≤ x ∧ x < w.length) :
    ∀ p ∈ splitToLists w s, 1 ≤ p.length := by
  obtain ⟨hc, hub⟩ := split_chain w.length s hne hp hb
  intro p hpmem
  simp only [splitToLists, List.mem_map] at hpmem
  obtain ⟨pr, hpr, rfl⟩ := hpmem
  have := zip_consec_lt w.length _ hc hub pr hpr
  rw [List.length_take, List.length_drop]
  omega

theorem range'_split_eq (n : ℕ) (hn : 1 ≤ n) :
    (0 :: (List.range' 1 (n - 1) ++ [n])) = List.range' 0 (n + 1) := by
  have h1 : List.range' 0 (n + 1) = 0 :: List.range' 1 n := by
    simpa using List.range'_succ 0 n 1
  have h2 : List.range' 1 n = List.range' 1 (n - 1) ++ [1 + (n - 1)] := by
    conv_lhs => rw [show n = (n - 1) + 1 by omega]
    simpa using @List.range'_concat 1 1 (n - 1)
  rw [h1, h2]
  have h3 : 1 + (n - 1) = n := by omega
  rw [h3]

theorem splitToLists_elementwise {α : Type} (w : List α) (hw : 1 ≤ w.length) :
    splitToLists w (List.range' 1 (w.length - 1)) = w.map (fun x => [x]) := by
  have hsplit := range'_split_eq w.length hw
  have hdrop : (List.range' 0 (w.length + 1)).drop 1 = List.range' 1 w.length := by
    have h1 : List.range' 0 (w.length + 1) = 0 :: List.range' 1 w.length := by
      simpa using List.range'_succ 0 w.length 1
    rw [h1]
    simp
  apply List.ext_getElem
  · rw [splitToLists_length]
    simp only [List.length_range', List.length_map]
    omega
  · intro i h1 h2
    rw [splitToLists_length] at h1
    simp only [List.length_range'] at h1
    have hi : i < w.length := by omega
    simp only [splitToLists, hsplit, hdrop, List.getElem_map]
    rw [List.getElem_zip]
    simp only [List.getElem_range'_1, Nat.zero_add]
    have hsub : 1 + i - i = 1 := by omega
    have hdropw : w.drop i = w[i] :: w.drop (i + 1) := List.drop_eq_getElem_cons hi
    rw [hsub, hdropw]
    rfl

theorem bfSubtrees_singletons
    (recur : List ℚ → BFState → Option (BFState × BruteForceResult)) :
    ∀ (l : List ℚ) (st : BFState),
      bfSubtrees recur (l.map (fun x => [x])) st =
        some (st, l.map (fun x => (⟨0, x⟩ : BruteForceResult))) := by
  intro l
  induction l with
  | nil => intro st; simp [bfSubtrees]
  | cons x rest ih =>
    intro st
    rw [List.map_cons, bfSubtrees, if_pos (by simp)]
    simp only [List.headD_cons]
    rw [ih st]
    rfl

/-! ### The evaluation of one candidate versus the heuristic tree cost -/

theorem rtcParts_forall₂ (recur : List ℚ → Option ℚ) :
    ∀ (parts : List (List ℚ)) (cs : List ℚ), rtcParts recur parts = some cs →
      List.Forall₂ (fun p c => (p.length = 1 ∧ c = 0) ∨ (p.length ≠ 1 ∧ recur p = some c))
        parts cs := by
  intro parts
  induction parts with
  | nil =>
    intro cs h
    rw [rtcParts] at h
    obtain rfl := Option.some.inj h
    exact List.Forall₂.nil
  | cons p rest ih =>
    intro cs h
    rw [rtcParts] at h
    match heq : (if p.length = 1 then some 0 else recur p) with
    | none => rw [heq] at h; exact absurd h (by simp)
    | some c =>
      rw [heq] at h
      simp only at h
      match heq2 : rtcParts recur rest with
      | none => rw [heq2] at h; exact absurd h (by simp)
      | some cs' =>
        rw [heq2] at h
        simp only at h
        obtain rfl := Option.some.inj h
        refine List.Forall₂.cons ?_ (ih cs' heq2)
        by_cases hl : p.length = 1
        · rw [if_pos hl] at heq
          exact Or.inl ⟨hl, (Option.some.inj heq).symm⟩
        · rw [if_neg hl] at heq
          exact Or.inr ⟨hl, heq⟩

/-- Pointwise comparison of one candidate's evaluation in `bruteforce_worker`
with the same split's contribution to the heuristic tree cost. -/
theorem sums_le (costs : List ℚ)
    (Pb : List ℚ → BruteForceResult → Prop) (Pc : List ℚ → ℚ → Prop)
    (hPw : ∀ p r, Pb p r → r.weight = p.sum)
    (hPle : ∀ p r c, Pb p r → Pc p c → r.costs ≤ c) :
    ∀ (parts : List (List ℚ)) (rs : List BruteForceResult) (cs : List ℚ),
      List.Forall₂ Pb parts rs → List.Forall₂ Pc parts cs →
      ∀ (costs' : List ℚ),
        (rs.map BruteForceResult.costs).sum +
            ((costs'.zip rs).map (fun p => p.1 * p.2.weight)).sum ≤
          cs.sum + ((costs'.zip (parts.map List.sum)).map (fun p => p.1 * p.2)).sum := by
  intro parts
  induction parts with
  | nil =>
    intro rs cs h1 h2 costs'
    cases h1
    cases h2
    simp
  | cons p rest ih =>
    intro rs cs h1 h2 costs'
    match rs, h1 with
    | r :: rs', List.Forall₂.cons hr h1' =>
      match cs, h2 with
      | c :: cs', List.Forall₂.cons hc h2' =>
        have hle : r.costs ≤ c := hPle p r c hr hc
        match costs' with
        | [] =>
          simp only [List.zip_nil_left, List.map_nil, List.sum_nil,
            List.map_cons, List.sum_cons, add_zero]
          have := ih rs' cs' h1' h2' []
          simp only [List.zip_nil_left, List.map_nil, List.sum_nil, add_zero] at this
          linarith
        | co :: costs'' =>
          simp only [List.map_cons, List.sum_cons, List.zip_cons_cons]
          have hw : r.weight = p.sum := hPw p r hr
          have := ih rs' cs' h1' h2' costs''
          rw [hw]
          linarith

theorem zip_weight_eq :
    ∀ (costs : List ℚ) (rs : List BruteForceResult),
      ((costs.zip rs).map (fun p => p.1 * p.2.weight)).sum =
        ((costs.zip (rs.map BruteForceResult.weight)).map (fun p => p.1 * p.2)).sum := by
  intro costs
  induction costs with
  | nil => intro rs; simp
  | cons co rest ih =>
    intro rs
    match rs with
    | [] => simp
    | r :: rs' =>
      simp only [List.map_cons, List.zip_cons_cons, List.sum_cons]
      rw [ih rs']

/-! ### Soundness of the cached costs against the heuristic tree cost (C1) -/

/-- Every cached cost for a key of length ≥ 2 is at most any cost the
heuristic tree achieves for that key (keys of length ≤ 1 carry the
sentinel and are never consulted by the recursion, which handles length-1
sublists inline). -/
def CacheSound (a : AccessType) (mbf : ℕ) (c : List (List ℚ × ℚ)) : Prop :=
  ∀ k v, alookup c k = some v → 2 ≤ k.length →
    ∀ g cost, ratioTreeCost a mbf g k = some cost → v ≤ cost

/-- The contract of the recursive bruteforce call used by the loops. -/
def RecurSound (a : AccessType) (mbf : ℕ)
    (recur : List ℚ → BFState → Option (BFState × BruteForceResult)) : Prop :=
  ∀ sub st out, CacheSound a mbf st.cache → recur sub st = some out →
    CacheSound a mbf out.1.cache ∧ out.2.weight = sub.sum ∧
      (2 ≤ sub.length → ∀ g cost, ratioTreeCost a mbf g sub = some cost →
        out.2.costs ≤ cost)

theorem cacheSound_ainsert (a : AccessType) (mbf : ℕ) (c : List (List ℚ × ℚ))
    (k : List ℚ) (v : ℚ) (hc : CacheSound a mbf c)
    (hk : 2 ≤ k.length → ∀ g cost, ratioTreeCost a mbf g k = some cost → v ≤ cost) :
    CacheSound a mbf (ainsert c k v) := by
  intro k' v' h hlen g cost hrt
  by_cases hks : k' = k
  · subst hks
    rw [alookup_ainsert_self] at h
    obtain rfl := Option.some.inj h
    exact hk hlen g cost hrt
  · rw [alookup_ainsert_ne _ _ _ _ hks] at h
    exact hc k' v' h hlen g cost hrt

/-- When the ratio heuristic produces an empty split for a list longer than
the branching factor, `ratio_based_tree` recurses on the same list forever:
the heuristic tree has no (finite) cost. -/
theorem ratioTreeCost_none_of_empty_split (a : AccessType) (mbf : ℕ) (wt : List ℚ)
    (hlen : mbf < wt.length) (hmbf : 2 ≤ mbf)
    (hs : getRatioSplitpositions wt (getRatios (accessCosts mbf a)) = some []) :
    ∀ g, ratioTreeCost a mbf g wt = none := by
  intro g
  induction g with
  | zero => rw [ratioTreeCost]
  | succ g ih =>
    have h1 : rtcParts (ratioTreeCost a mbf g) [wt] = none := by
      rw [rtcParts, if_neg (show ¬ wt.length = 1 by omega), ih]
    rw [ratioTreeCost]
    simp only
    rw [if_neg (show ¬ wt.length ≤ mbf by omega), hs]
    simp only
    rw [splitToLists_nil, h1]

theorem bfSubtrees_sound (a : AccessType) (mbf : ℕ)
    (recur : List ℚ → BFState → Option (BFState × BruteForceResult))
    (hrec : RecurSound a mbf recur) :
    ∀ (subs : List (List ℚ)) st out, (∀ p ∈ subs, 1 ≤ p.length) →
      CacheSound a mbf st.cache → bfSubtrees recur subs st = some out →
      CacheSound a mbf out.1.cache ∧
        List.Forall₂ (fun sub r => r.weight = sub.sum ∧ (sub.length = 1 → r.costs = 0) ∧
          (sub.length ≠ 1 → ∀ g cost, ratioTreeCost a mbf g sub = some cost →
            r.costs ≤ cost)) subs out.2 := by
  intro subs
  induction subs with
  | nil =>
    intro st out _ hC h
    rw [bfSubtrees] at h
    obtain rfl := Option.some.inj h
    exact ⟨hC, List.Forall₂.nil⟩
  | cons sub rest ih =>
    intro st out hlen hC h
    rw [bfSubtrees] at h
    match heq : (if sub.length = 1 then some (st, (⟨0, sub.headD 0⟩ : BruteForceResult))
        else recur sub st) with
    | none => rw [heq] at h; exact absurd h (by simp)
    | some (st1, res) =>
      rw [heq] at h
      simp only at h
      have hstep : CacheSound a mbf st1.cache ∧ res.weight = sub.sum ∧
          (sub.length = 1 → res.costs = 0) ∧
          (sub.length ≠ 1 → ∀ g cost, ratioTreeCost a mbf g sub = some cost →
            res.costs ≤ cost) := by
        by_cases hl : sub.length = 1
        · rw [if_pos hl] at heq
          obtain ⟨x, rfl⟩ := List.length_eq_one.mp hl
          have hst : st1 = st := congrArg Prod.fst (Option.some.inj heq).symm
          have hres : res = ⟨0, x⟩ := congrArg Prod.snd (Option.some.inj heq).symm
          subst hst
          subst hres
          exact ⟨hC, by simp, fun _ => rfl, fun hne => absurd hl hne⟩
        · rw [if_neg hl] at heq
          have h2 : 2 ≤ sub.length := by
            have := hlen sub (by simp)
            omega
          have := hrec sub st (st1, res) hC heq
          exact ⟨this.1, this.2.1, fun h1 => absurd h1 hl, fun _ => this.2.2 h2⟩
      match heq2 : bfSubtrees recur rest st1 with
      | none => rw [heq2] at h; exact absurd h (by simp)
      | some (st2, results) =>
        rw [heq2] at h
        simp only at h
        obtain rfl := Option.some.inj h
        have hrest := ih st1 (st2, results)
          (fun p hp => hlen p (List.mem_cons_of_mem _ hp)) hstep.1 heq2
        exact ⟨hrest.1, List.Forall₂.cons ⟨hstep.2.1, hstep.2.2.1, hstep.2.2.2⟩ hrest.2⟩

theorem bfSplitLoop_best_le
    (recur : List ℚ → BFState → Option (BFState × BruteForceResult))
    (elements costs : List ℚ) :
    ∀ (L : List (List ℕ)) st bS bC out,
      bfSplitLoop recur elements costs L st bS bC = some out → out.2.2 ≤ bC := by
  intro L
  induction L with
  | nil =>
    intro st bS bC out h
    rw [bfSplitLoop] at h
    obtain rfl := Option.some.inj h
    exact le_refl _
  | cons s rest ih =>
    intro st bS bC out h
    rw [bfSplitLoop] at h
    match heq : bfSubtrees recur (splitToLists elements s) st with
    | none => rw [heq] at h; exact absurd h (by simp)
    | some (st1, results) =>
      rw [heq] at h
      simp only at h
      split at h
      · rename_i hcond
        have h1 := ih st1 _ _ out h
        rcases hcond with hlt | ⟨heq', -⟩
        · exact le_of_lt (lt_of_le_of_lt h1 hlt)
        · exact heq' ▸ h1
      · exact ih st1 _ _ out h

theorem bfNumLoop_best_le
    (recur : List ℚ → BFState → Option (BFState × BruteForceResult))
    (a : AccessType) (elements : List ℚ) (nofElems : ℕ) :
    ∀ (ks : List ℕ) st bS bC out,
      bfNumLoop recur a elements nofElems ks st bS bC = some out → out.2.2 ≤ bC := by
  intro ks
  induction ks with
  | nil =>
    intro st bS bC out h
    rw [bfNumLoop] at h
    obtain rfl := Option.some.inj h
    exact le_refl _
  | cons k rest ih =>
    intro st bS bC out h
    rw [bfNumLoop] at h
    match heq : bfSplitLoop recur elements (accessCosts (k + 1) a)
        (iterNsplitsWorker nofElems k 1 []) st bS bC with
    | none => rw [heq] at h; exact absurd h (by simp)
    | some (st1, bS1, bC1) =>
      rw [heq] at h
      have h1 := bfSplitLoop_best_le recur elements _ _ st bS bC (st1, bS1, bC1) heq
      exact le_trans (ih st1 bS1 bC1 out h) h1

theorem bfSplitLoop_le_candidate (a : AccessType) (mbf : ℕ)
    (recur : List ℚ → BFState → Option (BFState × BruteForceResult))
    (hpres : ∀ sub st out, CacheSound a mbf st.cache → recur sub st = some out →
      CacheSound a mbf out.1.cache)
    (elements costs : List ℚ) (tgt : ℚ) (s : List ℕ)
    (hbound : ∀ stx out2, CacheSound a mbf stx.cache →
      bfSubtrees recur (splitToLists elements s) stx = some out2 →
      (out2.2.map BruteForceResult.costs).sum +
        ((costs.zip out2.2).map (fun p => p.1 * p.2.weight)).sum ≤ tgt) :
    ∀ (L : List (List ℕ)) st bS bC out, CacheSound a mbf st.cache → s ∈ L →
      bfSplitLoop recur elements costs L st bS bC = some out → out.2.2 ≤ tgt := by
  intro L
  induction L with
  | nil =>
    intro st bS bC out _ hs
    simp at hs
  | cons s' rest ih =>
    intro st bS bC out hC hs h
    rw [bfSplitLoop] at h
    match heq : bfSubtrees recur (splitToLists elements s') st with
    | none => rw [heq] at h; exact absurd h (by simp)
    | some (st1, results) =>
      rw [heq] at h
      have hC1 : CacheSound a mbf st1.cache :=
        bfSubtrees_pres (fun s0 => CacheSound a mbf s0.cache) recur
          (fun sub st' out' hP h' => hpres sub st' out' hP h')
          (splitToLists elements s') st (st1, results) hC heq
      rcases List.mem_cons.mp hs with rfl | hs'
      · have htot := hbound st (st1, results) hC heq
        simp only at h
        split at h
        · exact le_trans (bfSplitLoop_best_le recur elements costs rest st1 _ _ out h) htot
        · rename_i hcond
          push_neg at hcond
          have hble : bC ≤ (results.map BruteForceResult.costs).sum +
              ((costs.zip results).map (fun p => p.1 * p.2.weight)).sum := hcond.1
          exact le_trans
            (le_trans (bfSplitLoop_best_le recur elements costs rest st1 _ _ out h) hble)
            htot
      · simp only at h
        split at h
        · exact ih st1 _ _ out hC1 hs' h
        · exact ih st1 _ _ out hC1 hs' h

theorem bfNumLoop_le_candidate (a : AccessType) (mbf : ℕ)
    (recur : List ℚ → BFState → Option (BFState × BruteForceResult))
    (hpres : ∀ sub st out, CacheSound a mbf st.cache → recur sub st = some out →
      CacheSound a mbf out.1.cache)
    (elements : List ℚ) (nofElems : ℕ) (tgt : ℚ) (k : ℕ) (s : List ℕ)
    (hs : s ∈ iterNsplitsWorker nofElems k 1 [])
    (hbound : ∀ stx out2, CacheSound a mbf stx.cache →
      bfSubtrees recur (splitToLists elements s) stx = some out2 →
      (out2.2.map BruteForceResult.costs).sum +
        (((accessCosts (k + 1) a).zip out2.2).map (fun p => p.1 * p.2.weight)).sum ≤ tgt) :
    ∀ (ks : List ℕ) st bS bC out, CacheSound a mbf st.cache → k ∈ ks →
      bfNumLoop recur a elements nofElems ks st bS bC = some out → out.2.2 ≤ tgt := by
  intro ks
  induction ks with
  | nil =>
    intro st bS bC out _ hk
    simp at hk
  | cons k' rest ih =>
    intro st bS bC out hC hk h
    rw [bfNumLoop] at h
    match heq : bfSplitLoop recur elements (accessCosts (k' + 1) a)
        (iterNsplitsWorker nofElems k' 1 []) st bS bC with
    | none => rw [heq] at h; exact absurd h (by simp)
    | some (st1, bS1, bC1) =>
      rw [heq] at h
      have hC1 : CacheSound a mbf st1.cache :=
        bfSplitLoop_pres (fun s0 => CacheSound a mbf s0.cache) recur
          (fun sub st' out' hP h' => hpres sub st' out' hP h')
          elements _ _ st bS bC (st1, bS1, bC1) hC heq
      rcases List.mem_cons.mp hk with rfl | hk'
      · have hsplit := bfSplitLoop_le_candidate a mbf recur hpres elements
          (accessCosts (k + 1) a) tgt s hbound (iterNsplitsWorker nofElems k 1 [])
          st bS bC (st1, bS1, bC1) hC hs heq
        exact le_trans (bfNumLoop_best_le recur a elements nofElems rest st1 bS1 bC1 out h)
          hsplit
      · exact ih st1 bS1 bC1 out hC1 hk' h

theorem map_weight_mk (l : List ℚ) :
    (l.map (fun x => (⟨0, x⟩ : BruteForceResult))).map BruteForceResult.weight = l := by
  induction l with
  | nil => rfl
  | cons y ys ih => rw [List.map_cons, List.map_cons, ih]

theorem map_costs_mk (l : List ℚ) :
    ((l.map (fun x => (⟨0, x⟩ : BruteForceResult))).map BruteForceResult.costs).sum = 0 := by
  induction l with
  | nil => rfl
  | cons y ys ih =>
    rw [List.map_cons, List.map_cons, List.sum_cons, ih]
    exact add_zero 0

theorem bfWorker_sound (a : AccessType) (mbf : ℕ) (hmbf : 2 ≤ mbf) :
    ∀ fuel, RecurSound a mbf (bfWorker a mbf fuel) := by
  intro fuel
  induction fuel with
  | zero =>
    intro wt st out _ h
    rw [bfWorker] at h
    exact absurd h (by simp)
  | succ fuel ih =>
    intro wt st out hC h
    rw [bfWorker] at h
    simp only at h
    match heq : alookup st.cache wt with
    | some c =>
      rw [heq] at h
      simp only at h
      obtain rfl := Option.some.inj h
      exact ⟨hC, rfl, fun h2 g cost hrt => hC wt c heq h2 g cost hrt⟩
    | none =>
      rw [heq] at h
      simp only at h
      match heq2 : bfNumLoop (bfWorker a mbf fuel) a wt wt.length
          (List.range' 1 (min (mbf - 1) (wt.length - 1))) st [] bfSentinel with
      | none => rw [heq2] at h; exact absurd h (by simp)
      | some (st1, bS, bC) =>
        rw [heq2] at h
        simp only at h
        obtain rfl := Option.some.inj h
        have hC1 : CacheSound a mbf st1.cache :=
          bfNumLoop_pres (fun s0 => CacheSound a mbf s0.cache) (bfWorker a mbf fuel)
            (fun sub st' out' hP h' => (ih sub st' out' hP h').1) a wt wt.length
            _ st [] bfSentinel (st1, bS, bC) hC heq2
        have hbound : 2 ≤ wt.length →
            ∀ g cost, ratioTreeCost a mbf g wt = some cost → bC ≤ cost := by
          intro h2 g cost hrt
          match g with
          | 0 =>
            rw [ratioTreeCost] at hrt
            exact absurd hrt (by simp)
          | g + 1 =>
            rw [ratioTreeCost] at hrt
            simp only at hrt
            by_cases hle : wt.length ≤ mbf
            · rw [if_pos hle, if_neg (show ¬ wt.length = 1 by omega)] at hrt
              obtain rfl := Option.some.inj hrt
              have hk0mem : wt.length - 1 ∈
                  List.range' 1 (min (mbf - 1) (wt.length - 1)) := by
                rw [List.mem_range'_1]
                omega
              have hs0 : List.range' 1 (wt.length - 1) ∈
                  iterNsplitsWorker wt.length (wt.length - 1) 1 [] := by
                have := iterNsplitsWorker_complete wt.length (wt.length - 1) 1 []
                  (List.range' 1 (wt.length - 1)) (by omega) (by simp)
                  (List.pairwise_lt_range' 1 _ 1 (by norm_num))
                  (by
                    intro y hy
                    rw [List.mem_range'_1] at hy
                    omega)
                simpa using this
              have hbnd : ∀ stx out2, CacheSound a mbf stx.cache →
                  bfSubtrees (bfWorker a mbf fuel)
                    (splitToLists wt (List.range' 1 (wt.length - 1))) stx = some out2 →
                  (out2.2.map BruteForceResult.costs).sum +
                    (((accessCosts (wt.length - 1 + 1) a).zip out2.2).map
                      (fun p => p.1 * p.2.weight)).sum ≤
                    (((accessCosts wt.length a).zip wt).map (fun p => p.1 * p.2)).sum := by
                intro stx out2 hCx hsub
                rw [splitToLists_elementwise wt (by omega),
                  bfSubtrees_singletons (bfWorker a mbf fuel) wt stx] at hsub
                obtain rfl := Option.some.inj hsub
                have hn1 : wt.length - 1 + 1 = wt.length := by omega
                rw [hn1, zip_weight_eq, map_weight_mk, map_costs_mk, zero_add]
              exact bfNumLoop_le_candidate a mbf (bfWorker a mbf fuel)
                (fun sub st' out' hP h' => (ih sub st' out' hP h').1) wt wt.length
                _ (wt.length - 1) _ hs0 hbnd _ st [] bfSentinel (st1, bS, bC)
                hC hk0mem heq2
            · rw [if_neg hle] at hrt
              match heqs : getRatioSplitpositions wt (getRatios (accessCosts mbf a)) with
              | none => rw [heqs] at hrt; exact absurd hrt (by simp)
              | some s =>
                rw [heqs] at hrt
                simp only at hrt
                match heqp : rtcParts (ratioTreeCost a mbf g) (splitToLists wt s) with
                | none => rw [heqp] at hrt; exact absurd hrt (by simp)
                | some cs =>
                  rw [heqp] at hrt
                  simp only at hrt
                  obtain rfl := Option.some.inj hrt
                  have hsne : s ≠ [] := by
                    intro hnil
                    subst hnil
                    rw [splitToLists_nil, rtcParts,
                      if_neg (show ¬ wt.length = 1 by omega),
                      ratioTreeCost_none_of_empty_split a mbf wt (by omega) hmbf heqs g]
                      at heqp
                    exact absurd heqp (by simp)
                  have hgood := getRatioSplitpositions_good wt _ s heqs
                  have hrl : (getRatios (accessCosts mbf a)).length = mbf := by
                    simp [getRatios, accessCosts_length mbf (by omega) a]
                  have hslen : s.length ≤ mbf - 1 := by
                    have := hgood.2.2
                    omega
                  have hkn : s.length ≤ wt.length - 1 := by
                    match s, hsne with
                    | x :: s', _ =>
                      have hhead := pairwise_lt_head_bound wt.length s' x hgood.1
                        (fun y hy => (hgood.2.1 y hy).2)
                      have hx1 := (hgood.2.1 x (by simp)).1
                      simp only [List.length_cons]
                      omega
                  have hk1 : 1 ≤ s.length := by
                    match s, hsne with
                    | x :: s', _ => simp
                  have hkmem : s.length ∈
                      List.range' 1 (min (mbf - 1) (wt.length - 1)) := by
                    rw [List.mem_range'_1]
                    omega
                  have hsmem : s ∈ iterNsplitsWorker wt.length s.length 1 [] := by
                    have := iterNsplitsWorker_complete wt.length s.length 1 [] s
                      (by omega) rfl hgood.1
                      (fun y hy => ⟨(hgood.2.1 y hy).1, (hgood.2.1 y hy).2⟩)
                    simpa using this
                  have hparts1 : ∀ p ∈ splitToLists wt s, 1 ≤ p.length :=
                    splitToLists_part_lengths wt s hsne hgood.1 hgood.2.1
                  have hf2 := rtcParts_forall₂ (ratioTreeCost a mbf g)
                    (splitToLists wt s) cs heqp
                  have hbnd : ∀ stx out2, CacheSound a mbf stx.cache →
                      bfSubtrees (bfWorker a mbf fuel) (splitToLists wt s) stx =
                        some out2 →
                      (out2.2.map BruteForceResult.costs).sum +
                        (((accessCosts (s.length + 1) a).zip out2.2).map
                          (fun p => p.1 * p.2.weight)).sum ≤
                        cs.sum + (((accessCosts (s.length + 1) a).zip
                          ((splitToLists wt s).map List.sum)).map
                            (fun p => p.1 * p.2)).sum := by
                    intro stx out2 hCx hsub
                    have hsnd := bfSubtrees_sound a mbf (bfWorker a mbf fuel) ih
                      (splitToLists wt s) stx out2 hparts1 hCx hsub
                    refine sums_le (accessCosts (s.length + 1) a) _ _
                      (fun p r hb => hb.1) ?_
                      (splitToLists wt s) out2.2 cs hsnd.2 hf2
                      (accessCosts (s.length + 1) a)
                    intro p r c hb hc
                    rcases hc with ⟨hp1, rfl⟩ | ⟨hp1, hrec⟩
                    · rw [hb.2.1 hp1]
                    · exact hb.2.2 hp1 g c hrec
                  exact bfNumLoop_le_candidate a mbf (bfWorker a mbf fuel)
                    (fun sub st' out' hP h' => (ih sub st' out' hP h').1) wt wt.length
                    _ s.length s hsmem hbnd _ st [] bfSentinel (st1, bS, bC)
                    hC hkmem heq2
        exact ⟨cacheSound_ainsert a mbf st1.cache wt bC hC1 hbound, rfl, hbound⟩

theorem cacheSound_nil (a : AccessType) (mbf : ℕ) : CacheSound a mbf [] := by
  intro k v h
  simp [alookup] at h

/-- C1 (corrected: the comparison holds for every weighted sequence of length
≥ 2; on shorter sequences `bruteforce_worker` returns its untouched sentinel
`float(0xCAFFEBABE)`, which exceeds the heuristic tree's cost 0 — see the
counterexample): whenever `bruteforce` (run on a fresh cost cache) returns a
result and the ratio heuristic, applied recursively as in
`ratio_based_tree`, produces a tree of finite total cost under the same cost
model, policy, and max branching factor ≥ 2, the bruteforce cost is at most
the heuristic tree's cost. -/
theorem claim_bruteforce_le_ratio_tree (a : AccessType) (mbf : ℕ) (hmbf : 2 ≤ mbf)
    (wt : List ℚ) (hwt : 2 ≤ wt.length) (sp0 : List (List ℚ × List ℕ)) (fuel g : ℕ)
    (out : BFState × BruteForceResult) (c : ℚ)
    (hbf : bruteforce wt mbf a sp0 fuel = some out)
    (hrt : ratioTreeCost a mbf g wt = some c) :
    out.2.costs ≤ c := by
  have hsound := bfWorker_sound a mbf hmbf fuel wt ⟨[], sp0⟩ out
    (cacheSound_nil a mbf) hbf
  exact hsound.2.2 hwt g c hrt

/-- C1 counterexample: on the single-element sequence `[1.0]` the claim as
stated fails: `bruteforce` returns the sentinel cost `float(0xCAFFEBABE)`
while the heuristic tree costs 0. -/
theorem claim_bruteforce_le_ratio_tree_cex :
    bruteforce [(1 : ℚ)] 4 AccessType.WRAPPABLE [] 2 =
      some (⟨[([1], bfSentinel)], [([1], [])]⟩, ⟨bfSentinel, 1⟩) ∧
    ratioTreeCost AccessType.WRAPPABLE 4 2 [(1 : ℚ)] = some 0 ∧
    ¬ ((bfSentinel : ℚ) ≤ 0) := by
  refine ⟨by decide, by decide, by norm_num [bfSentinel]⟩

theorem claim_bruteforce_le_ratio_tree_witness :
    ∃ (out : BFState × BruteForceResult) (c : ℚ),
      bruteforce [(1 : ℚ), 2] 2 AccessType.CONSTANT [] 3 = some out ∧
      ratioTreeCost AccessType.CONSTANT 2 3 [(1 : ℚ), 2] = some c ∧
      out.2.costs ≤ c :=
  ⟨_, _, rfl, rfl, claim_bruteforce_le_ratio_tree AccessType.CONSTANT 2 (by decide)
    [(1 : ℚ), 2] (by decide) [] 3 3 _ _ rfl rfl⟩

end DlnaTree
